import Mathlib

/-!
Verification development for the ABI codec core of the pkcswap repository
(source file src/123.ts, an ethers-v5-derived ABI coder).

The TypeScript source is shallowly embedded:
* byte buffers (`Uint8Array`) become `List Nat` with every entry `< 256`;
* `BigNumber`/bn.js arbitrary-precision integers become `Int`/`Nat`
  (bn.js semantics: `div` truncates toward zero, `umod` is the nonnegative
  remainder, `toTwos`/`fromTwos` are two's-complement conversions,
  `toNumber` fails once the value needs more than 53 bits);
* JS exceptions become `Except`/explicit error results, with the error codes
  of the source's `Logger` (`BUFFER_OVERRUN`, `NUMERIC_FAULT`,
  `INVALID_ARGUMENT`) kept apart because `unpack` dispatches on them;
* the mutable `Reader` cursor becomes explicit state passing; a decoder
  returns the post-state reader even when it fails, because the source
  mutates `_offset` before a later check throws and `unpack` keeps using
  the same reader after catching the error.
-/

namespace Pkcswap

/-- Error values thrown by the codec, keyed by the source's `Logger` error
codes.  `unpack` re-throws exactly the `BUFFER_OVERRUN` class and captures
everything else, so the code is part of the value. -/
inductive AbiErr where
  | bufferOverrun (msg : String)
  | numericFault (operation : String) (fault : String)
  | invalidArgument (msg : String)
  | missingArgument (msg : String)
  | unexpectedArgument (msg : String)
  deriving Repr, DecidableEq

/-- Byte buffers: `Uint8Array` as a list of byte values. -/
abbrev Bytes := List Nat

/-- All entries are genuine byte values. -/
def AllBytes (bs : Bytes) : Prop := ∀ b ∈ bs, b < 256

/-- `BigNumber.from(bytes)`: big-endian interpretation of a byte buffer. -/
def bytesToNat (bs : Bytes) : Nat := bs.foldl (fun a b => a * 256 + b) 0

/-- `n` rendered as `k` big-endian bytes (low `8*k` bits of `n`). -/
def natBytesBE : Nat → Nat → Bytes
  | 0, _ => []
  | k + 1, n => natBytesBE k (n / 256) ++ [n % 256]

/-- One 32-byte word, big-endian: what `Writer.writeValue` emits after
left-padding the minimal big-endian encoding of the value to the word size. -/
def word32 (n : Nat) : Bytes := natBytesBE 32 n

/-- `Writer._getValue`: a value is rendered as a left-padded 32-byte word;
a value needing more than 32 bytes throws `value out-of-bounds` with error
code `BUFFER_OVERRUN`. -/
def writeValue (n : Nat) : Except AbiErr Bytes :=
  if n < 2 ^ 256 then .ok (word32 n) else .error (.bufferOverrun "value out-of-bounds")

/-- `Writer.writeBytes`: raw bytes padded on the right with zeros to a
multiple of the 32-byte word size. -/
def writeBytesPad (bs : Bytes) : Bytes :=
  bs ++ List.replicate ((32 - bs.length % 32) % 32) 0

/-- `Math.ceil(length / wordSize) * wordSize` for `wordSize = 32`. -/
def ceil32 (len : Nat) : Nat := (len + 31) / 32 * 32

/-- `BigNumber.toNumber` via bn.js: conversion to a JS number fails with a
`NUMERIC_FAULT`/`overflow` once the value does not fit in 53 bits. -/
def toNumber (n : Nat) : Except AbiErr Nat :=
  if n < 2 ^ 53 then .ok n else .error (.numericFault "toNumber" "overflow")

/-- The `Reader` cursor: underlying data, current offset, and the
`allowLoose` flag fixed at construction. -/
structure Reader where
  data : Bytes
  off : Nat
  allowLoose : Bool
  deriving Repr, DecidableEq

namespace Reader

/-- `Reader.subReader`: a fresh reader over the data from
`_offset + offset` to the end of the buffer. -/
def subReader (r : Reader) (offset : Nat) : Reader :=
  { data := r.data.drop (r.off + offset), off := 0, allowLoose := r.allowLoose }

/-- `Reader.readBytes` (with `_peekBytes` inlined): reads `len` bytes,
advancing by the word-aligned length; past-the-end reads throw
`data out-of-bounds` (`BUFFER_OVERRUN`) unless the loose escape applies. -/
def readBytes (r : Reader) (len : Nat) (loose : Bool) : Except AbiErr (Bytes × Reader) :=
  let aligned := ceil32 len
  if r.off + aligned > r.data.length then
    if r.allowLoose = true ∧ loose = true ∧ r.off + len ≤ r.data.length then
      .ok (((r.data.drop r.off).take len).take len, { r with off := r.off + len })
    else
      .error (.bufferOverrun "data out-of-bounds")
  else
    .ok (((r.data.drop r.off).take aligned).take len, { r with off := r.off + aligned })

/-- `Reader.readValue`: one 32-byte word read as a (nonnegative) value. -/
def readValue (r : Reader) : Except AbiErr (Nat × Reader) := do
  let (bs, r') ← r.readBytes 32 false
  pure (bytesToNat bs, r')

end Reader

/-- The coder hierarchy (`AbiCoder._getCoder` dispatch): one variant per
coder class of the source.  `num size signed` is `NumberCoder` with `size`
in bytes; `array coder none` is a dynamic-length array (`length = -1` in the
source); `nullC` is `NullCoder` (the empty type string).  `AnonymousCoder`
only erases the binding name, which this model keeps outside the coder, so
it needs no variant. -/
inductive Coder where
  | address
  | bool
  | string
  | bytes
  | num (size : Nat) (signed : Bool)
  | fixedBytes (size : Nat)
  | nullC
  | array (coder : Coder) (length : Option Nat)
  | tuple (coders : List Coder)
  deriving Repr

mutual

/-- The `dynamic` flag: `string`, `bytes`, dynamic-length arrays, and any
array/tuple with a dynamic member. -/
def Coder.dynamic : Coder → Bool
  | .string => true
  | .bytes => true
  | .array c len => len.isNone || Coder.dynamic c
  | .tuple cs => Coder.anyDynamic cs
  | _ => false

/-- `dynamic` over a coder list (a tuple is dynamic iff a member is). -/
def Coder.anyDynamic : List Coder → Bool
  | [] => false
  | c :: cs => Coder.dynamic c || Coder.anyDynamic cs

end

mutual

/-- Encoded size of a static (non-dynamic) coder: one word for the leaves,
zero for `NullCoder`, and the sum/product for static tuples and arrays. -/
def Coder.staticSize : Coder → Nat
  | .nullC => 0
  | .array c len => (len.getD 0) * Coder.staticSize c
  | .tuple cs => Coder.staticSizeList cs
  | _ => 32

/-- Sum of static sizes over a coder list. -/
def Coder.staticSizeList : List Coder → Nat
  | [] => 0
  | c :: cs => Coder.staticSize c + Coder.staticSizeList cs

end

/-- Decoded values.  `res` is the array-like `Result` a tuple/array decode
produces; a field of a `Result` can hold a captured (deferred) decode error,
which the source realizes as a throwing property getter.  `nullV` is the JS
`null` returned by `NullCoder.decode`. -/
inductive DVal where
  | int (z : Int)
  | addr (n : Nat)
  | bool (b : Bool)
  | bytes (bs : Bytes)
  | str (cps : List Nat)
  | nullV
  | res (fields : List DVal)
  | err (e : AbiErr)
  deriving Repr

/-- Outcome of one decoder run: the value or the thrown error, in both cases
together with the reader as the run left it (the source mutates `_offset`
in place, and `unpack` keeps reading from the same reader after a catch). -/
inductive DecRes where
  | ok (v : DVal) (r : Reader)
  | err (e : AbiErr) (r : Reader)
  deriving Repr

/-- Just the value/error part of a decode outcome. -/
def DecRes.val : DecRes → Except AbiErr DVal
  | .ok v _ => .ok v
  | .err e _ => .error e

/-- Outcome of `unpack` over a coder list: the collected field values or the
propagated error, with the post-state reader. -/
inductive UnpRes where
  | ok (fields : List DVal) (r : Reader)
  | err (e : AbiErr) (r : Reader)
  deriving Repr

/-- `unpack`'s `if (value != undefined) values.push(value)`: the `null`
produced by `NullCoder.decode` is skipped, every other value is kept. -/
def pushValue (v : DVal) (vs : List DVal) : List DVal :=
  match v with
  | .nullV => vs
  | v => v :: vs

/-!
## UTF-8 (`toUtf8Bytes` / `getUtf8CodePoints` with the default `error` policy)

JS strings are sequences of UTF-16 code units; a well-formed string is
modeled by its Unicode scalar values.  `toUtf8Bytes` walks the code units:
one byte below `0x80`, two below `0x800`, four for a surrogate pair (which
carries a scalar `≥ 0x10000`), three otherwise; a scalar in the surrogate
range is an unpaired surrogate, which the source rejects with
`invalid utf-8 string`.  JS bitwise expressions are rendered
arithmetically: `c >> k` is `c / 2^k`, `c & (2^k - 1)` is `c % 2^k`, and
`x | m` is `m + x` for the disjoint masks used here.
-/

/-- `toUtf8Bytes` on one Unicode scalar value. -/
def utf8EncodeChar (c : Nat) : Bytes :=
  if c < 0x80 then [c]
  else if c < 0x800 then [0xc0 + c / 0x40, 0x80 + c % 0x40]
  else if c < 0x10000 then [0xe0 + c / 0x1000, 0x80 + c / 0x40 % 0x40, 0x80 + c % 0x40]
  else [0xf0 + c / 0x40000, 0x80 + c / 0x1000 % 0x40, 0x80 + c / 0x40 % 0x40, 0x80 + c % 0x40]

/-- `toUtf8Bytes` over the scalars of a string; an unpaired surrogate (or a
value no UTF-16 string can carry) throws `invalid utf-8 string`. -/
def toUtf8Bytes (s : List Nat) : Except AbiErr Bytes :=
  if s.all (fun c => c < 0x110000 && !(0xd800 ≤ c && c ≤ 0xdfff)) then
    .ok (s.flatMap utf8EncodeChar)
  else
    .error (.invalidArgument "invalid utf-8 string")

/-- `getUtf8CodePoints` with `onError = errorFunc` (the default policy, which
throws `invalid codepoint` as an `INVALID_ARGUMENT` error).  Follows the
source loop: classify the lead byte, collect the continuation bytes, then
check the range, surrogate and overlong conditions. -/
def getUtf8CodePoints (bytes : Bytes) : Except AbiErr (List Nat) :=
  match bytes with
  | [] => .ok []
  | c :: rest =>
    -- 0xxx xxxx
    if c < 0x80 then do
      let tail ← getUtf8CodePoints rest
      .ok (c :: tail)
    else
      -- lead-byte classification: 110x / 1110 / 1111 0 prefixes
      let extraLength : Option (Nat × Nat) :=
        if 0xc0 ≤ c ∧ c < 0xe0 then some (1, 0x7f)
        else if 0xe0 ≤ c ∧ c < 0xf0 then some (2, 0x7ff)
        else if 0xf0 ≤ c ∧ c < 0xf8 then some (3, 0xffff)
        else none
      match extraLength with
      | none => .error (.invalidArgument "invalid codepoint")
      | some (extra, overlongMask) =>
        if rest.length < extra then .error (.invalidArgument "invalid codepoint")
        else
          let conts := rest.take extra
          if conts.all (fun b => 0x80 ≤ b && b < 0xc0) then
            let res := conts.foldl (fun acc b => acc * 0x40 + b % 0x40) (c % 2 ^ (8 - extra - 1))
            if res > 0x10ffff then .error (.invalidArgument "invalid codepoint")
            else if 0xd800 ≤ res ∧ res ≤ 0xdfff then .error (.invalidArgument "invalid codepoint")
            else if res ≤ overlongMask then .error (.invalidArgument "invalid codepoint")
            else do
              let tail ← getUtf8CodePoints (rest.drop extra)
              .ok (res :: tail)
          else .error (.invalidArgument "invalid codepoint")
  termination_by bytes.length
  decreasing_by
    all_goals simp_wf
    all_goals omega

/-!
## bn.js arithmetic helpers used by `NumberCoder`
-/

/-- bn.js `toTwos(width)`: two's-complement rendering of an in-range value
(`2^width - |z|` for a negative value, the value itself otherwise). -/
def toTwosI (width : Nat) (z : Int) : Int :=
  if z < 0 then z + 2 ^ width else z

/-- bn.js `maskn(width)`: keep the low `width` bits of a nonnegative value. -/
def maskI (width : Nat) (z : Int) : Int := z % 2 ^ width

/-- bn.js `fromTwos(width)`: reinterpret a `width`-bit value as signed (the
sign bit is set exactly when the value is at least `2^(width-1)`). -/
def fromTwosI (width : Nat) (z : Int) : Int :=
  if 2 ^ (width - 1) ≤ z then z - 2 ^ width else z

/-!
## The decoder (`Coder.decode` methods plus `unpack`)

`decodeField` is the per-coder body of `unpack`'s `forEach`: a dynamic coder
reads one offset word from the main cursor and decodes from a sub-reader at
`base + offset`; a static coder decodes from the main cursor.  In both cases
a `BUFFER_OVERRUN` failure is re-thrown and any other failure is captured as
the field's value ("cannot recover from this").  The `offset.toNumber()`
conversion happens before the `try`, so its `NUMERIC_FAULT` aborts the whole
unpack.  Array elements go through `AnonymousCoder`, which decodes exactly
like its wrapped coder, so `decodeElems` uses the element coder directly.
The source also tags a captured error object with the coder's
`baseType`/`name`/`type`; those are reporting metadata and are not modeled.
-/

mutual

/-- Dispatch over the `decode(reader)` methods of the coder classes. -/
def decodeCoder : Coder → Reader → DecRes
  | .address, r =>
    match r.readValue with
    | .error e => .err e r
    | .ok (w, r1) =>
      -- getAddress(hexZeroPad(word, 20)): `value out of range` when the word
      -- needs more than 20 bytes; the checksummed address string returned by
      -- getAddress is kept canonically as its 160-bit value.
      if w < 2 ^ 160 then .ok (.addr w) r1
      else .err (.invalidArgument "value out of range") r1
  | .bool, r =>
    match r.readValue with
    | .error e => .err e r
    | .ok (w, r1) => .ok (.bool (w != 0)) r1
  | .string, r =>
    match r.readValue with
    | .error e => .err e r
    | .ok (w, r1) =>
      match toNumber w with
      | .error e => .err e r1
      | .ok len =>
        match r1.readBytes len true with
        | .error e => .err e r1
        | .ok (bs, r2) =>
          match getUtf8CodePoints bs with
          | .error e => .err e r2
          | .ok cps => .ok (.str cps) r2
  | .bytes, r =>
    match r.readValue with
    | .error e => .err e r
    | .ok (w, r1) =>
      match toNumber w with
      | .error e => .err e r1
      | .ok len =>
        match r1.readBytes len true with
        | .error e => .err e r1
        | .ok (bs, r2) => .ok (.bytes bs) r2
  | .num size signed, r =>
    match r.readValue with
    | .error e => .err e r
    | .ok (w, r1) =>
      -- readValue().mask(size*8), then fromTwos(size*8) when signed.  The
      -- default coerce turns narrow values into JS numbers, which does not
      -- change the numeric value and is dropped by the Int model.
      let masked : Int := (w : Int) % 2 ^ (size * 8)
      .ok (.int (if signed then fromTwosI (size * 8) masked else masked)) r1
  | .fixedBytes size, r =>
    match r.readBytes size false with
    | .error e => .err e r
    | .ok (bs, r1) => .ok (.bytes bs) r1
  | .nullC, r =>
    match r.readBytes 0 false with
    | .error e => .err e r
    | .ok (_, r1) => .ok .nullV r1
  | .array c len, r =>
    match len with
    | some n =>
      match decodeElems c n (r.subReader 0) r with
      | .ok fields r1 => .ok (.res fields) r1
      | .err e r1 => .err e r1
    | none =>
      match r.readValue with
      | .error e => .err e r
      | .ok (w, r1) =>
        match toNumber w with
        | .error e => .err e r1
        | .ok count =>
          -- sanity check: each slot needs at least 32 bytes, measured
          -- against the reader's whole backing buffer
          if count * 32 > r.data.length then
            .err (.bufferOverrun "insufficient data length") r1
          else
            match decodeElems c count (r1.subReader 0) r1 with
            | .ok fields r2 => .ok (.res fields) r2
            | .err e r2 => .err e r2
  | .tuple cs, r =>
    match unpackList cs (r.subReader 0) r with
    | .ok fields r1 => .ok (.res fields) r1
    | .err e r1 => .err e r1
  termination_by c _ => (sizeOf c, 0)

/-- One iteration of `unpack`'s `forEach`: offset indirection for dynamic
coders, in-place decode for static ones, `BUFFER_OVERRUN` re-thrown, any
other failure captured as the field value. -/
def decodeField (c : Coder) (base : Reader) (r : Reader) : DecRes :=
  if c.dynamic then
    match r.readValue with
    | .error e => .err e r
    | .ok (w, r1) =>
      match toNumber w with
      | .error e => .err e r1
      | .ok off =>
        match decodeCoder c (base.subReader off) with
        | .ok v _ => .ok v r1
        | .err e _ =>
          match e with
          | .bufferOverrun m => .err (.bufferOverrun m) r1
          | e => .ok (.err e) r1
  else
    match decodeCoder c r with
    | .ok v r1 => .ok v r1
    | .err e r1 =>
      match e with
      | .bufferOverrun m => .err (.bufferOverrun m) r1
      | e => .ok (.err e) r1
  termination_by (sizeOf c, 1)

/-- `unpack` over a (tuple's) coder list: `baseReader` is anchored once at
the tuple's start, fields are collected with `pushValue`. -/
def unpackList : List Coder → Reader → Reader → UnpRes
  | [], _, r => .ok [] r
  | c :: cs, base, r =>
    match decodeField c base r with
    | .err e r1 => .err e r1
    | .ok v r1 =>
      match unpackList cs base r1 with
      | .err e r2 => .err e r2
      | .ok vs r2 => .ok (pushValue v vs) r2
  termination_by cs _ _ => (sizeOf cs, 1)

/-- `unpack` over `count` copies of an array's element coder. -/
def decodeElems (c : Coder) (n : Nat) (base : Reader) (r : Reader) : UnpRes :=
  match n with
  | 0 => .ok [] r
  | n + 1 =>
    match decodeField c base r with
    | .err e r1 => .err e r1
    | .ok v r1 =>
      match decodeElems c n base r1 with
      | .err e r2 => .err e r2
      | .ok vs r2 => .ok (pushValue v vs) r2
  termination_by (sizeOf c, n + 2)

end

/-- `AbiCoder.decode` after the coders are built: wrap the coder list in the
top-level `TupleCoder` and run it on a fresh reader. -/
def abiDecodeCoders (cs : List Coder) (data : Bytes) (loose : Bool) : Except AbiErr (List DVal) :=
  match decodeCoder (.tuple cs) { data := data, off := 0, allowLoose := loose } with
  | .ok (.res fields) _ => .ok fields
  | .ok v _ => .ok [v]
  | .err e _ => .error e

/-!
## `ParamType` and `AbiCoder._getCoder`

`PType` is the structured content of a `ParamType` tree: the `baseType`
dispatch of `_getCoder` plus the `u?int[0-9]*`/`bytes[0-9]+` matches on the
canonical type string.  `verifyType` has already canonicalized bare
`uint`/`int` to 256 bits, so the width is always explicit here.  `nullT` is
the empty type string (`baseType = ""`), handled by `NullCoder`.
-/

inductive PType where
  | address
  | bool
  | string
  | bytes
  | uint (bits : Nat)
  | int (bits : Nat)
  | bytesN (size : Nat)
  | nullT
  | array (elem : PType) (length : Option Nat)
  | tuple (comps : List PType)
  deriving Repr

mutual

/-- `AbiCoder._getCoder`: dispatch on the base type, with the bit-length and
byte-length validity checks of the `u?int`/`bytes` matches. -/
def getCoder : PType → Except AbiErr Coder
  | .address => .ok .address
  | .bool => .ok .bool
  | .string => .ok .string
  | .bytes => .ok .bytes
  | .uint bits =>
    if bits = 0 ∨ bits > 256 ∨ bits % 8 ≠ 0 then .error (.invalidArgument "invalid uint bit length")
    else .ok (.num (bits / 8) false)
  | .int bits =>
    if bits = 0 ∨ bits > 256 ∨ bits % 8 ≠ 0 then .error (.invalidArgument "invalid int bit length")
    else .ok (.num (bits / 8) true)
  | .bytesN size =>
    if size = 0 ∨ size > 32 then .error (.invalidArgument "invalid bytes length")
    else .ok (.fixedBytes size)
  | .nullT => .ok .nullC
  | .array elem len => do
    let c ← getCoder elem
    .ok (.array c len)
  | .tuple comps => do
    let cs ← getCoderList comps
    .ok (.tuple cs)

/-- `_getCoder` mapped over tuple components. -/
def getCoderList : List PType → Except AbiErr (List Coder)
  | [] => .ok []
  | t :: ts => do
    let c ← getCoder t
    let cs ← getCoderList ts
    .ok (c :: cs)

end

/-- `AbiCoder.decode(types, data, loose)`. -/
def abiDecode (ts : List PType) (data : Bytes) (loose : Bool) : Except AbiErr (List DVal) := do
  let cs ← getCoderList ts
  abiDecodeCoders cs data loose

/-!
## Values on the encoding side

`Value` models the JS values handed to `AbiCoder.encode`, canonically:
numbers/BigNumbers as `Int`, an address string by its 160-bit value, byte
data as byte lists, a string by its Unicode scalar values, and JS `null`
(the only value `NullCoder` accepts) as `nullV`.
-/

inductive Value where
  | int (z : Int)
  | addr (n : Nat)
  | bool (b : Bool)
  | bytes (bs : Bytes)
  | str (s : List Nat)
  | nullV
  | arr (vs : List Value)
  | tup (vs : List Value)
  deriving Repr

/-- The decoded image of a value: what decoding its encoding returns.
Tuples and arrays both come back as `Result` objects. -/
def toD : Value → DVal
  | .int z => .int z
  | .addr n => .addr n
  | .bool b => .bool b
  | .bytes bs => .bytes bs
  | .str s => .str s
  | .nullV => .nullV
  | .arr vs => .res (vs.attach.map (fun x => toD x.1))
  | .tup vs => .res (vs.attach.map (fun x => toD x.1))
  decreasing_by
    all_goals simp_wf
    all_goals (cases x; rename_i v hv)
    all_goals simp only
    all_goals exact Nat.lt_add_left 1 (List.sizeOf_lt_of_mem hv)

@[simp] theorem toD_int (z : Int) : toD (.int z) = .int z := by rw [toD]

@[simp] theorem toD_addr (n : Nat) : toD (.addr n) = .addr n := by rw [toD]

@[simp] theorem toD_bool (b : Bool) : toD (.bool b) = .bool b := by rw [toD]

@[simp] theorem toD_bytes (bs : Bytes) : toD (.bytes bs) = .bytes bs := by rw [toD]

@[simp] theorem toD_str (s : List Nat) : toD (.str s) = .str s := by rw [toD]

@[simp] theorem toD_nullV : toD .nullV = .nullV := by rw [toD]

@[simp] theorem toD_arr (vs : List Value) : toD (.arr vs) = .res (vs.map toD) := by
  rw [toD]
  congr 1
  exact List.attach_map_val vs toD

@[simp] theorem toD_tup (vs : List Value) : toD (.tup vs) = .res (vs.map toD) := by
  rw [toD]
  congr 1
  exact List.attach_map_val vs toD

/-- A value is in range and aligned to a coder: the hypotheses under which
the coder's `encode` accepts it.  Follows the per-coder validation
(`getAddress`, the `NumberCoder` bounds, `arrayify` byte checks, UTF-16
well-formedness, arity checks). -/
inductive Typed : Coder → Value → Prop where
  | address {n : Nat} : n < 2 ^ 160 → Typed .address (.addr n)
  | bool {b : Bool} : Typed .bool (.bool b)
  | numSigned {size : Nat} {z : Int} :
      -(2 ^ (size * 8 - 1)) ≤ z → z ≤ 2 ^ (size * 8 - 1) - 1 →
      Typed (.num size true) (.int z)
  | numUnsigned {size : Nat} {z : Int} :
      0 ≤ z → z ≤ 2 ^ (size * 8) - 1 →
      Typed (.num size false) (.int z)
  | fixedBytes {size : Nat} {bs : Bytes} :
      bs.length = size → AllBytes bs → Typed (.fixedBytes size) (.bytes bs)
  | bytes {bs : Bytes} : AllBytes bs → Typed .bytes (.bytes bs)
  | str {s : List Nat} :
      (∀ c ∈ s, c < 0x110000 ∧ ¬(0xd800 ≤ c ∧ c ≤ 0xdfff)) →
      Typed .string (.str s)
  | nullV : Typed .nullC .nullV
  | arrayF {c : Coder} {n : Nat} {vs : List Value} :
      vs.length = n → (∀ v ∈ vs, Typed c v) → Typed (.array c (some n)) (.arr vs)
  | arrayD {c : Coder} {vs : List Value} :
      (∀ v ∈ vs, Typed c v) → Typed (.array c none) (.arr vs)
  | tuple {cs : List Coder} {vs : List Value} :
      cs.length = vs.length → (∀ p ∈ cs.zip vs, Typed p.1 p.2) →
      Typed (.tuple cs) (.tup vs)

/-!
## The encoder (`pack` and the `Coder.encode` methods)

`pack` builds a static writer and a dynamic writer: a static value is
encoded straight into the head, a dynamic value is encoded into the tail at
its current tail offset while a placeholder word is reserved in the head and
back-patched with `headLength + tailOffset` once the head is complete, and
the two buffers are concatenated.  `assembleGo` performs the same
computation in one pass: it carries the running tail offset and receives the
final head length up front, which is legitimate because the head length is
determined by the coder list alone (32 bytes per dynamic member, the encoded
length for static members).
-/

/-- Final length of `pack`'s static writer: one word per dynamic member, the
encoded bytes for static members. -/
def headLength (parts : List (Bool × Bytes)) : Nat :=
  (parts.map (fun p => if p.1 then 32 else p.2.length)).sum

/-- One pass over the encoded parts: returns the static buffer and the
dynamic buffer.  `hl` is the final head length used to back-patch the
offset words, `tailOff` the tail offset already consumed. -/
def assembleGo (hl : Nat) : List (Bool × Bytes) → Nat → Except AbiErr (Bytes × Bytes)
  | [], _ => .ok ([], [])
  | (dyn, bs) :: rest, tailOff =>
    if dyn then do
      let w ← writeValue (hl + tailOff)
      let (s, d) ← assembleGo hl rest (tailOff + bs.length)
      .ok (w ++ s, bs ++ d)
    else do
      let (s, d) ← assembleGo hl rest tailOff
      .ok (bs ++ s, d)

/-- `pack`'s output: the static buffer followed by the dynamic buffer. -/
def assemble (parts : List (Bool × Bytes)) : Except AbiErr Bytes := do
  let (s, d) ← assembleGo (headLength parts) parts 0
  .ok (s ++ d)

mutual

/-- Dispatch over the `encode(writer, value)` methods of the coder classes.
A value of the wrong JS shape fails with the coder's argument error. -/
def encodeCoder : Coder → Value → Except AbiErr Bytes
  | .address, v =>
    match v with
    | .addr n =>
      -- getAddress validates the 40-hex-digit form, then the numeric value
      -- is written as a left-padded word
      if n < 2 ^ 160 then writeValue n else .error (.invalidArgument "invalid address")
    | _ => .error (.invalidArgument "invalid address")
  | .bool, v =>
    match v with
    | .bool b => writeValue (if b then 1 else 0)
    | _ => .error (.invalidArgument "invalid boolean value")
  | .string, v =>
    match v with
    | .str s => do
      let bs ← toUtf8Bytes s
      let lw ← writeValue bs.length
      .ok (lw ++ writeBytesPad bs)
    | _ => .error (.invalidArgument "invalid string value")
  | .bytes, v =>
    match v with
    | .bytes bs =>
      if bs.all (fun b => b < 256) then do
        let lw ← writeValue bs.length
        .ok (lw ++ writeBytesPad bs)
      else .error (.invalidArgument "invalid arrayify value")
    | _ => .error (.invalidArgument "invalid arrayify value")
  | .num size signed, v =>
    match v with
    | .int z =>
      -- bounds against MaxUint256.mask(wordSize*8) as in NumberCoder.encode
      let maxUintValue : Int := maskI (32 * 8) (2 ^ 256 - 1)
      if signed then
        let bounds := maskI (size * 8 - 1) maxUintValue
        if z > bounds ∨ z < (bounds + 1) * (-1) then
          .error (.invalidArgument "value out-of-bounds")
        else
          writeValue (toTwosI (8 * 32) (fromTwosI (size * 8) (maskI (size * 8) (toTwosI (size * 8) z)))).toNat
      else
        if z < 0 ∨ z > maskI (size * 8) maxUintValue then
          .error (.invalidArgument "value out-of-bounds")
        else
          writeValue (maskI (size * 8) (toTwosI (size * 8) z)).toNat
    | _ => .error (.invalidArgument "invalid number value")
  | .fixedBytes size, v =>
    match v with
    | .bytes bs =>
      if bs.all (fun b => b < 256) then
        if bs.length ≠ size then .error (.invalidArgument "incorrect data length")
        else .ok (writeBytesPad bs)
      else .error (.invalidArgument "invalid arrayify value")
    | _ => .error (.invalidArgument "invalid arrayify value")
  | .nullC, v =>
    match v with
    | .nullV => .ok []
    | _ => .error (.invalidArgument "not null")
  | .array c len, v =>
    match v with
    | .arr vs =>
      match len with
      | some n =>
        -- checkArgumentCount(value.length, count)
        if vs.length < n then .error (.missingArgument "missing argument: coder array")
        else if n < vs.length then .error (.unexpectedArgument "too many arguments: coder array")
        else do
          let parts ← encodeElems c vs
          assemble parts
      | none => do
        let lw ← writeValue vs.length
        let parts ← encodeElems c vs
        let body ← assemble parts
        .ok (lw ++ body)
    | _ => .error (.invalidArgument "expected array value")
  | .tuple cs, v =>
    match v with
    | .tup vs =>
      if cs.length ≠ vs.length then .error (.invalidArgument "types/value length mismatch")
      else do
        let parts ← encodeParts cs vs
        assemble parts
    | _ => .error (.invalidArgument "invalid tuple value")
  termination_by _ v => sizeOf v

/-- The per-member encodes of `pack` over a tuple's coders, each paired with
its `dynamic` flag. -/
def encodeParts : List Coder → List Value → Except AbiErr (List (Bool × Bytes))
  | [], [] => .ok []
  | c :: cs, v :: vs => do
    let bs ← encodeCoder c v
    let rest ← encodeParts cs vs
    .ok ((c.dynamic, bs) :: rest)
  | _, _ => .error (.invalidArgument "types/value length mismatch")
  termination_by _ vs => sizeOf vs

/-- The per-element encodes of `pack` over an array's repeated element
coder. -/
def encodeElems (c : Coder) : List Value → Except AbiErr (List (Bool × Bytes))
  | [] => .ok []
  | v :: vs => do
    let bs ← encodeCoder c v
    let rest ← encodeElems c vs
    .ok ((c.dynamic, bs) :: rest)
  termination_by vs => sizeOf vs

end

/-- `AbiCoder.encode(types, values)`: the arity check, then the top-level
`TupleCoder` encode into a fresh writer. -/
def abiEncode (ts : List PType) (vs : List Value) : Except AbiErr Bytes :=
  if ts.length ≠ vs.length then .error (.invalidArgument "types/values length mismatch")
  else do
    let cs ← getCoderList ts
    encodeCoder (.tuple cs) (.tup vs)

/-- Indexed access on a frozen `unpack` result: the final loop of `unpack`
replaces an error-valued slot with a getter that throws the captured error,
so reading that index raises it while any other index returns its value (an
index past the end is JS `undefined`, here `none`). -/
def resAccess (vs : List DVal) (i : Nat) : Option (Except AbiErr DVal) :=
  (vs.get? i).map (fun v =>
    match v with
    | .err e => .error e
    | v => .ok v)

/-- `BigNumber.div`: `throwFault('division by zero', 'div')` on a zero
divisor is the only guard; bn.js `div` then performs truncated division, so
a negative divisor returns a quotient instead of faulting. -/
def bnDiv (x y : Int) : Except AbiErr Int :=
  if y = 0 then .error (.numericFault "div" "division by zero")
  else .ok (Int.tdiv x y)

/-- `BigNumber.mod`: a negative modulus faults with
`cannot modulo negative values`; for a positive modulus bn.js `umod`
returns the nonnegative remainder.  (A zero modulus fails an internal
bn.js assertion and is outside this model.) -/
def bnMod (x y : Int) : Except AbiErr Int :=
  if y < 0 then .error (.numericFault "mod" "cannot modulo negative values")
  else .ok (Int.emod x y)

/-!
## `getAddress` (`getChecksumAddress`, the ICAP branch)

Address strings are modeled as their JS char-code sequences (`48` = `0`,
`120` = `x`, `65..70` = `A..F`, `97..102` = `a..f`, ...), which is also what
`charCodeAt` feeds `keccak256`.  `keccak256` itself comes from the external
`js-sha3` package, so it enters the model as a parameter `hash` from byte
lists to byte lists; every theorem below holds for an arbitrary `hash`.
-/

abbrev Str := List Nat

/-- `[0-9]` -/
def isDigitC (c : Nat) : Bool := decide (48 ≤ c ∧ c ≤ 57)

/-- `[a-f]` -/
def isLoHexC (c : Nat) : Bool := decide (97 ≤ c ∧ c ≤ 102)

/-- `[A-F]` -/
def isUpHexC (c : Nat) : Bool := decide (65 ≤ c ∧ c ≤ 70)

/-- `[0-9a-fA-F]` -/
def isHexDigitC (c : Nat) : Bool := isDigitC c || isLoHexC c || isUpHexC c

/-- `String.prototype.toLowerCase`, per character. -/
def toLowerC (c : Nat) : Nat := if 65 ≤ c ∧ c ≤ 90 then c + 32 else c

/-- `String.prototype.toUpperCase`, per character. -/
def toUpperC (c : Nat) : Nat := if 97 ≤ c ∧ c ≤ 122 then c - 32 else c

/-- `isHexString(address, 20)`: `0x` followed by exactly 40 hex digits. -/
def isHexString20 (s : Str) : Bool :=
  decide (s.take 2 = [48, 120]) && decide (s.length = 42) && (s.drop 2).all isHexDigitC

/-- The regex `^(0x)?[0-9a-fA-F]{40}$`. -/
def matchHex40 (s : Str) : Bool :=
  (decide (s.length = 40) && s.all isHexDigitC) ||
    (decide (s.take 2 = [48, 120]) && decide (s.length = 42) &&
      (s.drop 2).all isHexDigitC)

/-- What comes strictly after the first character satisfying `p` (empty if
none does). -/
def afterFirst (p : Nat → Bool) (s : Str) : Str :=
  match s.dropWhile (fun c => !p c) with
  | [] => []
  | _ :: rest => rest

/-- The regex `([A-F].*[a-f])|([a-f].*[A-F])`: some upper-case hex letter
strictly before some lower-case one, or the other way round. -/
def mixedCase (s : Str) : Bool :=
  (afterFirst isUpHexC s).any isLoHexC || (afterFirst isLoHexC s).any isUpHexC

/-- One character of the checksum loop: position `i` is upper-cased when the
corresponding nibble of the hash (`hashed[i >> 1] >> 4` for even `i`,
`hashed[i >> 1] & 0x0f` for odd `i`) is at least 8. -/
def hexNibbleUp (hashed : List Nat) (i : Nat) (c : Nat) : Nat :=
  let b := hashed.getD (i / 2) 0
  let nib := if i % 2 = 0 then b / 16 else b % 16
  if 8 ≤ nib then toUpperC c else c

/-- The checksum loop of `getChecksumAddress` over the lower-cased address
body, one character at a time from index `i`. -/
def applyCase (hashed : List Nat) (i : Nat) : Str → Str
  | [] => []
  | c :: rest => hexNibbleUp hashed i c :: applyCase hashed (i + 1) rest

/-- `getChecksumAddress(address)`: requires the `0x`-prefixed 40-digit hex
form, lower-cases it, hashes the 40 char codes and re-cases each digit by
the hash nibbles. -/
def getChecksumAddress (hash : List Nat → List Nat) (address : Str) :
    Except AbiErr Str :=
  if isHexString20 address then
    let chars := (address.map toLowerC).drop 2
    .ok (48 :: 120 :: applyCase (hash chars) 0 chars)
  else .error (.invalidArgument "invalid address")

/-- `[0-9A-Za-z]` -/
def isAlnumC (c : Nat) : Bool :=
  isDigitC c || decide (97 ≤ c ∧ c ≤ 122) || decide (65 ≤ c ∧ c ≤ 90)

/-- The regex `^XE[0-9]{2}[0-9A-Za-z]{30,31}$` (`88` = `X`, `69` = `E`). -/
def matchICAP (s : Str) : Bool :=
  decide (s.take 2 = [88, 69]) && ((s.drop 2).take 2).all isDigitC &&
    (decide (s.length = 34) || decide (s.length = 35)) && (s.drop 4).all isAlnumC

/-- `ibanLookup`: a digit maps to itself, `A..Z` to the decimal digits of
`10..35`, anything else is absent (and vanishes in the `join`). -/
def ibanLookup (c : Nat) : Str :=
  if isDigitC c then [c]
  else if 65 ≤ c ∧ c ≤ 90 then
    let n := 10 + (c - 65)
    [48 + n / 10, 48 + n % 10]
  else []

/-- `parseInt` on a decimal digit string. -/
def digitsToNat (s : Str) : Nat := s.foldl (fun acc c => acc * 10 + (c - 48)) 0

def natToDecGo : Nat → Nat → Str
  | 0, _ => []
  | fuel + 1, n => if n < 10 then [48 + n] else natToDecGo fuel (n / 10) ++ [48 + n % 10]

/-- `String(n)` for a number: decimal digits. -/
def natToDec (n : Nat) : Str := natToDecGo (n + 1) n

/-- The `while (expanded.length >= safeDigits)` loop of `ibanChecksum`
(`safeDigits = 15`): fold the leading 15-digit block into its value mod 97.
Each round shortens the string, so the initial length bounds the rounds. -/
def ibanReduce : Nat → Str → Str
  | 0, s => s
  | fuel + 1, s =>
    if 15 ≤ s.length then
      ibanReduce fuel (natToDec (digitsToNat (s.take 15) % 97) ++ s.drop 15)
    else s

/-- `ibanChecksum(address)`. -/
def ibanChecksum (address : Str) : Str :=
  let addr := address.map toUpperC
  let rearranged := addr.drop 4 ++ addr.take 2 ++ [48, 48]
  let expanded := (rearranged.map ibanLookup).flatten
  let reduced := ibanReduce expanded.length expanded
  let checksum := natToDec (98 - digitsToNat reduced % 97)
  if checksum.length < 2 then 48 :: checksum else checksum

def base36DigitVal (c : Nat) : Nat :=
  if isDigitC c then c - 48
  else if 97 ≤ c ∧ c ≤ 122 then 10 + (c - 97)
  else if 65 ≤ c ∧ c ≤ 90 then 10 + (c - 65)
  else 0

/-- `new BN(value, 36)` on an alphanumeric string. -/
def base36ToNat (s : Str) : Nat := s.foldl (fun acc c => acc * 36 + base36DigitVal c) 0

def hexDigitChar (d : Nat) : Nat := if d < 10 then 48 + d else 87 + d

def natToHexGo : Nat → Nat → Str
  | 0, _ => []
  | fuel + 1, n =>
    if n < 16 then [hexDigitChar n] else natToHexGo fuel (n / 16) ++ [hexDigitChar (n % 16)]

/-- `BN.toString(16)`: lower-case hex digits, `"0"` for zero. -/
def natToHex (n : Nat) : Str := natToHexGo (n + 1) n

/-- `getAddress(address)`: the checksummed-hex branch with its bad-checksum
guard, the ICAP branch with its iban-checksum guard, or the invalid-address
error. -/
def getAddress (hash : List Nat → List Nat) (address : Str) : Except AbiErr Str :=
  if matchHex40 address then
    let addr := if address.take 2 = [48, 120] then address else 48 :: 120 :: address
    match getChecksumAddress hash addr with
    | .error e => .error e
    | .ok result =>
      if mixedCase addr && decide (result ≠ addr) then
        .error (.invalidArgument "bad address checksum")
      else .ok result
  else if matchICAP address then
    if (address.drop 2).take 2 ≠ ibanChecksum address then
      .error (.invalidArgument "bad icap checksum")
    else
      let hexStr := natToHex (base36ToNat (address.drop 4))
      let padded := List.replicate (40 - hexStr.length) 48 ++ hexStr
      getChecksumAddress hash (48 :: 120 :: padded)
  else .error (.invalidArgument "invalid address")

/-!
## `Interface.decodeFunctionResult`

In this file the method is declared `static`, so at run time
`this._abiCoder` reads the instance-only `_abiCoder` field off the
`Interface` class itself, where it is `undefined`, and
`bytes.length % this._abiCoder._getWordSize()` throws a `TypeError` before
any decoding happens (the module-bottom driver calls it exactly this way).
`decodeFunctionResultAlg` below is the method's body with the coder bound
the way the instance method binds it — to the default `AbiCoder` — which is
the computation the `switch` describes.  Note that inside the non-builtin
selector branch the same kind of undefined dereference (`this.getError`)
sits in a `try { ... } catch { console.log }`, so there the `TypeError` is
swallowed and the generic call exception is still reached.
-/

/-- Outcome of `decodeFunctionResult`: a decoded result, or the
`call revert exception` with whatever `errorName`/`errorSignature`/`reason`
were recovered. -/
inductive CallRes where
  | res (vals : List DVal)
  | callException (errorName errorSignature : Option String) (reason : Option DVal)

/-- `Error(string)` selector `0x08c379a0`. -/
def errorSelector : Bytes := [0x08, 0xc3, 0x79, 0xa0]

/-- `Panic(uint256)` selector `0x4e487b71`. -/
def panicSelector : Bytes := [0x4e, 0x48, 0x7b, 0x71]

def decodeFunctionResultAlg (outputs : List PType) (bytes : Bytes) :
    Except AbiErr CallRes :=
  if bytes.length % 32 = 0 then
    match abiDecode outputs bytes false with
    | .ok vals => .ok (.res vals)
    | .error _ => .ok (.callException none none none)
  else if bytes.length % 32 = 4 then
    if bytes.take 4 = errorSelector then
      match abiDecode [.string] (bytes.drop 4) false with
      | .error e => .error e
      | .ok vals =>
        -- reason = errorArgs[0]: reading a deferred-error slot throws
        match resAccess vals 0 with
        | some (.error e) => .error e
        | some (.ok v) =>
          .ok (.callException (some "Error") (some "Error(string)") (some v))
        | none => .ok (.callException (some "Error") (some "Error(string)") none)
    else if bytes.take 4 = panicSelector then
      match abiDecode [.uint 256] (bytes.drop 4) false with
      | .error e => .error e
      | .ok _ => .ok (.callException (some "Panic") (some "Panic(uint256)") none)
    else
      -- this.getError throws inside the try and is logged, leaving the
      -- recovered metadata null
      .ok (.callException none none none)
  else .ok (.callException none none none)

/-!
## `Interface.decodeEventLog`

Topics are modeled as their 32-byte word contents (`arrayify` of the hex
strings); the fragment's event topic (`keccak256` of its signature) enters
as the parameter `topicHash` the way `getEventTopic` supplies it.
-/

/-- One event input: its `indexed` flag and its type. -/
structure EvParam where
  indexed : Bool
  ptype : PType

/-- The dynamic-type test of `decodeEventLog`: `string`, `bytes`, or a
`tuple`/`array` base type. -/
def evDynamic : PType → Bool
  | .string => true
  | .bytes => true
  | .tuple _ => true
  | .array _ _ => true
  | _ => false

/-- One slot of the decoded event result: a decoded value, a captured
deferred error, the opaque `Indexed` marker (carrying only the hash, or
`null` when no topics were supplied), or JS `undefined` for a read past the
end. -/
inductive EvSlot where
  | val (v : DVal)
  | errSlot (e : AbiErr)
  | indexedMarker (hash : Option DVal)
  | undef

/-- The indexed-decode type list: a dynamic indexed input contributes
`bytes32`, a static one its own type. -/
def evIndexedTypes (inputs : List EvParam) : List PType :=
  inputs.foldr
    (fun p acc =>
      if p.indexed then (if evDynamic p.ptype then .bytesN 32 else p.ptype) :: acc
      else acc) []

/-- The non-indexed-decode type list. -/
def evNonIndexedTypes (inputs : List EvParam) : List PType :=
  inputs.foldr (fun p acc => if p.indexed then acc else p.ptype :: acc) []

/-- The assembly `forEach` of `decodeEventLog`: walk the inputs with the two
running indices.  A dynamic indexed input reads its hash directly (a
deferred error there propagates), the static and non-indexed reads sit in
`try`/`catch` and capture deferred errors as the slot value. -/
def evAssembleGo (ri : Option (List DVal)) (rn : List DVal) :
    List EvParam → Nat → Nat → Except AbiErr (List EvSlot)
  | [], _, _ => .ok []
  | p :: rest, ii, ni =>
    if p.indexed then
      match ri with
      | none =>
        match evAssembleGo none rn rest ii ni with
        | .error e => .error e
        | .ok tail => .ok (.indexedMarker none :: tail)
      | some vals =>
        if evDynamic p.ptype then
          match resAccess vals ii with
          | some (.error e) => .error e
          | some (.ok v) =>
            match evAssembleGo ri rn rest (ii + 1) ni with
            | .error e => .error e
            | .ok tail => .ok (.indexedMarker (some v) :: tail)
          | none =>
            match evAssembleGo ri rn rest (ii + 1) ni with
            | .error e => .error e
            | .ok tail => .ok (.indexedMarker none :: tail)
        else
          let slot :=
            match resAccess vals ii with
            | some (.ok v) => EvSlot.val v
            | some (.error e) => EvSlot.errSlot e
            | none => EvSlot.undef
          match evAssembleGo ri rn rest (ii + 1) ni with
          | .error e => .error e
          | .ok tail => .ok (slot :: tail)
    else
      let slot :=
        match resAccess rn ni with
        | some (.ok v) => EvSlot.val v
        | some (.error e) => EvSlot.errSlot e
        | none => EvSlot.undef
      match evAssembleGo ri rn rest ii (ni + 1) with
      | .error e => .error e
      | .ok tail => .ok (slot :: tail)

def decodeEventLog (anonymous : Bool) (topicHash : Bytes) (inputs : List EvParam)
    (data : Bytes) (topics : Option (List Bytes)) : Except AbiErr (List EvSlot) :=
  match
    (match topics with
     | some ts =>
       if anonymous = false then
         match ts.head? with
         | some t0 =>
           if t0 = topicHash then Except.ok (some ts.tail)
           else Except.error (AbiErr.invalidArgument "fragment/topic mismatch")
         | none => Except.error (AbiErr.invalidArgument "fragment/topic mismatch")
       else Except.ok (some ts)
     | none => Except.ok (none : Option (List Bytes))) with
  | .error e => .error e
  | .ok topics2 =>
    match
      (match topics2 with
       | some ts => (abiDecode (evIndexedTypes inputs) ts.flatten false).map some
       | none => Except.ok (none : Option (List DVal))) with
    | .error e => .error e
    | .ok ri =>
      match abiDecode (evNonIndexedTypes inputs) data true with
      | .error e => .error e
      | .ok rn => evAssembleGo ri rn inputs 0 0

/-!
## `parseParamType`

The parse tree is threaded as a zipper: the node under construction plus a
stack of ancestor frames (each the ancestor's partial fields, its state and
its already-finished components).  The state flags are JS truthiness:
`delete` of a flag is `false`.  A top-level `)` hits the explicit
`if (!node) throwError(i)` and is positional, while a top-level `,` runs
`node.parent.components.push(sibling)` on the `undefined` parent and dies
with a `TypeError` instead — `nullParent` below.
-/

inductive ParseErr where
  | unexpectedChar (i : Nat)
  | invalidModifier
  | unexpectedEof
  | nullParent
  deriving Repr, DecidableEq

structure PFlags where
  allowType : Bool := false
  allowParams : Bool := false
  allowName : Bool := false
  allowArray : Bool := false
  readArray : Bool := false
  deriving Repr, DecidableEq

structure PNode where
  type : List Char
  name : List Char
  indexed : Bool
  comps : Option (List PNode)
  deriving Repr

structure PFrame where
  node : PNode
  state : PFlags
  elders : List PNode

structure PMachine where
  stack : List PFrame
  node : PNode
  state : PFlags

def freshPNode : PNode := { type := [], name := [], indexed := false, comps := none }

def ModifiersBytes (name : List Char) : Bool :=
  name = "calldata".toList || name = "memory".toList || name = "storage".toList

def ModifiersNest (name : List Char) : Bool :=
  name = "calldata".toList || name = "memory".toList

def checkModifier (type name : List Char) : Except ParseErr Bool :=
  if (type = "bytes".toList ∨ type = "string".toList) ∧ ModifiersBytes name = true then
    .ok true
  else if type = "address".toList ∧ name = "payable".toList then .ok true
  else if (type.contains '[' = true ∨ type = "tuple".toList) ∧ ModifiersNest name = true then
    .ok true
  else if ModifiersBytes name = true ∨ name = "payable".toList then .error .invalidModifier
  else .ok false

def isOneNine (c : Char) : Bool := decide ('1' ≤ c ∧ c ≤ '9')

/-- `verifyType`: expand bare `uint`/`int` prefixes (`^uint($|[^1-9])`,
`^int($|[^1-9])`) to 256 bits. -/
def verifyType (type : List Char) : List Char :=
  if type.take 4 = "uint".toList ∧
      (type.length = 4 ∨ isOneNine (type.getD 4 ' ') = false) then
    "uint256".toList ++ type.drop 4
  else if type.take 3 = "int".toList ∧
      (type.length = 3 ∨ isOneNine (type.getD 3 ' ') = false) then
    "int256".toList ++ type.drop 3
  else type

/-- The `node.name === 'indexed'` / `checkModifier` head shared by the `)`
and `,` cases (these two do not re-check `node.indexed`). -/
def finalizeNode (allowIndexed : Bool) (i : Nat) (nd : PNode) : Except ParseErr PNode :=
  if nd.name = "indexed".toList then
    if allowIndexed = false then .error (.unexpectedChar i)
    else .ok { nd with indexed := true, name := [] }
  else
    match checkModifier nd.type nd.name with
    | .error e => .error e
    | .ok true => .ok { nd with name := [] }
    | .ok false => .ok nd

def parseStep (allowIndexed : Bool) (i : Nat) (c : Char) (m : PMachine) :
    Except ParseErr PMachine :=
  if c = '(' then
    if m.state.allowType = true ∧ m.node.type = [] then
      .ok { stack := { node := { m.node with type := verifyType "tuple".toList },
                       state := { m.state with allowType := false },
                       elders := [] } :: m.stack,
            node := freshPNode,
            state := { allowType := true } }
    else if m.state.allowParams = false then .error (.unexpectedChar i)
    else
      .ok { stack := { node := { m.node with type := verifyType m.node.type },
                       state := { m.state with allowType := false },
                       elders := [] } :: m.stack,
            node := freshPNode,
            state := { allowType := true } }
  else if c = ')' then
    match finalizeNode allowIndexed i m.node with
    | .error e => .error e
    | .ok child =>
      let child := { child with type := verifyType child.type }
      match m.stack with
      | [] => .error (.unexpectedChar i)
      | f :: rest =>
        .ok { stack := rest,
              node := { f.node with comps := some (f.elders ++ [child]) },
              state := { f.state with
                allowParams := false, allowName := true, allowArray := true } }
  else if c = ',' then
    match finalizeNode allowIndexed i m.node with
    | .error e => .error e
    | .ok child =>
      let child := { child with type := verifyType child.type }
      match m.stack with
      | [] => .error .nullParent
      | f :: rest =>
        .ok { stack := { f with elders := f.elders ++ [child] } :: rest,
              node := freshPNode,
              state := { allowType := true } }
  else if c = ' ' then
    let m2 :=
      if m.state.allowType = true ∧ m.node.type ≠ [] then
        { m with node := { m.node with type := verifyType m.node.type },
                 state := { m.state with
                   allowType := false, allowName := true, allowParams := true } }
      else m
    if m2.state.allowName = true ∧ m2.node.name ≠ [] then
      if m2.node.name = "indexed".toList then
        if allowIndexed = false then .error (.unexpectedChar i)
        else if m2.node.indexed = true then .error (.unexpectedChar i)
        else .ok { m2 with node := { m2.node with indexed := true, name := [] } }
      else
        match checkModifier m2.node.type m2.node.name with
        | .error e => .error e
        | .ok true => .ok { m2 with node := { m2.node with name := [] } }
        | .ok false => .ok { m2 with state := { m2.state with allowName := false } }
    else .ok m2
  else if c = '[' then
    if m.state.allowArray = false then .error (.unexpectedChar i)
    else
      .ok { m with node := { m.node with type := m.node.type ++ ['['] },
                   state := { m.state with
                     allowArray := false, allowName := false, readArray := true } }
  else if c = ']' then
    if m.state.readArray = false then .error (.unexpectedChar i)
    else
      .ok { m with node := { m.node with type := m.node.type ++ [']'] },
                   state := { m.state with
                     readArray := false, allowArray := true, allowName := true } }
  else
    if m.state.allowType = true then
      .ok { m with node := { m.node with type := m.node.type ++ [c] },
                   state := { m.state with allowParams := true, allowArray := true } }
    else if m.state.allowName = true then
      .ok { m with node := { m.node with name := m.node.name ++ [c] },
                   state := { m.state with allowArray := false } }
    else if m.state.readArray = true then
      .ok { m with node := { m.node with type := m.node.type ++ [c] } }
    else .error (.unexpectedChar i)

def parseRun (allowIndexed : Bool) : List (Nat × Char) → PMachine →
    Except ParseErr PMachine
  | [], m => .ok m
  | (i, c) :: rest, m =>
    match parseStep allowIndexed i c m with
    | .error e => .error e
    | .ok m2 => parseRun allowIndexed rest m2

def parseParamType (allowIndexed : Bool) (param : List Char) : Except ParseErr PNode :=
  let norm := param.map (fun c => if c.isWhitespace then ' ' else c)
  match parseRun allowIndexed norm.enum
      { stack := [], node := freshPNode, state := { allowType := true } } with
  | .error e => .error e
  | .ok m =>
    match m.stack with
    | _ :: _ => .error .unexpectedEof
    | [] =>
    if m.node.name = "indexed".toList then
      if allowIndexed = false then .error (.unexpectedChar (param.length - 7))
      else if m.node.indexed = true then .error (.unexpectedChar (param.length - 7))
      else
        .ok { m.node with indexed := true, name := [], type := verifyType m.node.type }
    else
      match checkModifier m.node.type m.node.name with
      | .error e => .error e
      | .ok true => .ok { m.node with name := [], type := verifyType m.node.type }
      | .ok false => .ok { m.node with type := verifyType m.node.type }

/-!
## Basic facts about words, padding and the reader
-/

theorem natBytesBE_length (k : Nat) : ∀ n, (natBytesBE k n).length = k := by
  induction k with
  | zero => intro n; rfl
  | succ k ih =>
    intro n
    simp [natBytesBE, ih]

theorem natBytesBE_allBytes (k : Nat) : ∀ n, AllBytes (natBytesBE k n) := by
  induction k with
  | zero => intro n b hb; simp [natBytesBE] at hb
  | succ k ih =>
    intro n b hb
    simp only [natBytesBE, List.mem_append, List.mem_singleton] at hb
    rcases hb with hb | hb
    · exact ih _ b hb
    · subst hb; exact Nat.mod_lt _ (by norm_num)

theorem bytesToNat_append_singleton (xs : Bytes) (b : Nat) :
    bytesToNat (xs ++ [b]) = bytesToNat xs * 256 + b := by
  simp [bytesToNat, List.foldl_append]

theorem bytesToNat_natBytesBE (k : Nat) : ∀ n, bytesToNat (natBytesBE k n) = n % 256 ^ k := by
  induction k with
  | zero => intro n; simp [natBytesBE, bytesToNat, Nat.mod_one]
  | succ k ih =>
    intro n
    rw [natBytesBE, bytesToNat_append_singleton, ih, pow_succ,
      mul_comm (256 ^ k) 256, Nat.mod_mul]
    ring

theorem word32_length (n : Nat) : (word32 n).length = 32 := natBytesBE_length 32 n

theorem word32_allBytes (n : Nat) : AllBytes (word32 n) := natBytesBE_allBytes 32 n

theorem bytesToNat_word32 (n : Nat) (h : n < 2 ^ 256) : bytesToNat (word32 n) = n := by
  rw [word32, bytesToNat_natBytesBE]
  have h2 : n < 256 ^ 32 := by
    have e : (256 : Nat) ^ 32 = 2 ^ 256 := by norm_num
    rw [e]; exact h
  exact Nat.mod_eq_of_lt h2

theorem writeValue_ok (n : Nat) (h : n < 2 ^ 256) : writeValue n = .ok (word32 n) := by
  rw [writeValue, if_pos h]

theorem writeBytesPad_length (bs : Bytes) : (writeBytesPad bs).length = ceil32 bs.length := by
  simp only [writeBytesPad, List.length_append, List.length_replicate, ceil32]
  omega

theorem writeBytesPad_take (bs : Bytes) : (writeBytesPad bs).take bs.length = bs := by
  simp [writeBytesPad]

theorem writeBytesPad_allBytes (bs : Bytes) (h : AllBytes bs) : AllBytes (writeBytesPad bs) := by
  intro b hb
  rcases List.mem_append.1 hb with hb | hb
  · exact h b hb
  · rw [List.eq_of_mem_replicate hb]; norm_num

attribute [irreducible] natBytesBE word32

theorem ceil32_mod (len : Nat) : ceil32 len % 32 = 0 := by
  simp [ceil32, Nat.mul_mod_left]

theorem ceil32_ge (len : Nat) : len ≤ ceil32 len := by
  simp only [ceil32]; omega

theorem ceil32_lt (len : Nat) : ceil32 len < len + 32 := by
  simp only [ceil32]; omega

theorem ceil32_of_mod (len : Nat) (h : len % 32 = 0) : ceil32 len = len := by
  simp only [ceil32]; omega

/-- Reading `len` bytes from a reader positioned exactly at a chunk of the
aligned length: returns the first `len` bytes of the chunk and advances past
the chunk. -/
theorem readBytes_at (pre w rest : Bytes) (al loose : Bool) (len off : Nat)
    (hoff : off = pre.length) (hw : w.length = ceil32 len) :
    Reader.readBytes { data := pre ++ (w ++ rest), off := off, allowLoose := al } len loose =
      .ok (w.take len,
        { data := pre ++ (w ++ rest), off := off + w.length, allowLoose := al }) := by
  subst hoff
  have hguard : ¬ pre.length + ceil32 len > (pre ++ (w ++ rest)).length := by
    simp only [List.length_append, hw.symm]
    omega
  simp only [Reader.readBytes]
  rw [if_neg hguard]
  have hdrop : (pre ++ (w ++ rest)).drop pre.length = w ++ rest := List.drop_left pre (w ++ rest)
  have htake : (w ++ rest).take (ceil32 len) = w := by
    rw [← hw, List.take_left]
  rw [hdrop, htake, ← hw]

/-- Reading one word from a reader positioned exactly at that word. -/
theorem readValue_at (pre w rest : Bytes) (al : Bool) (off : Nat)
    (hoff : off = pre.length) (hw : w.length = 32) :
    Reader.readValue { data := pre ++ (w ++ rest), off := off, allowLoose := al } =
      .ok (bytesToNat w,
        { data := pre ++ (w ++ rest), off := off + 32, allowLoose := al }) := by
  have h32 : w.length = ceil32 32 := by rw [hw]; rfl
  have h := readBytes_at pre w rest al false 32 off hoff h32
  simp only [Reader.readValue, bind, Except.bind, h]
  have hww : w.take 32 = w := by rw [← hw]; exact List.take_length w
  rw [hww, hw]
  rfl

/-!
## UTF-8 round-trip
-/

theorem utf8_decode_char (c : Nat) (hlt : c < 0x110000)
    (hsur : ¬(0xd800 ≤ c ∧ c ≤ 0xdfff)) (t : Bytes) :
    getUtf8CodePoints (utf8EncodeChar c ++ t) =
      (getUtf8CodePoints t).bind (fun tail => .ok (c :: tail)) := by
  by_cases h1 : c < 0x80
  · rw [utf8EncodeChar, if_pos h1]
    rw [List.singleton_append, getUtf8CodePoints]
    simp [h1, Except.bind, bind]
  · by_cases h2 : c < 0x800
    · rw [utf8EncodeChar, if_neg h1, if_pos h2, List.cons_append, List.cons_append,
        List.nil_append, getUtf8CodePoints]
      have hb0 : ¬ (0xc0 + c / 0x40 < 0x80) := by omega
      have hcls : 0xc0 ≤ 0xc0 + c / 0x40 ∧ 0xc0 + c / 0x40 < 0xe0 := by omega
      rw [if_neg hb0]
      simp only [if_pos hcls]
      simp only [List.length_cons, List.take, List.drop, List.all_cons, List.all_nil]
      have hc1 : (decide (0x80 ≤ 0x80 + c % 0x40) && decide (0x80 + c % 0x40 < 0xc0) && true)
          = true := by
        simp
        omega
      rw [if_neg (by omega : ¬ t.length + 1 < 1), if_pos hc1]
      simp only [List.foldl]
      have hres : (0xc0 + c / 0x40) % 2 ^ (8 - 1 - 1) * 0x40 + (0x80 + c % 0x40) % 0x40 = c := by
        have e1 : (0xc0 + c / 0x40) % 2 ^ 6 = c / 0x40 := by omega
        have e2 : (0x80 + c % 0x40) % 0x40 = c % 0x40 := by omega
        rw [e1, e2]
        omega
      rw [hres]
      rw [if_neg (by omega : ¬ c > 0x10ffff)]
      rw [if_neg (by omega : ¬ (0xd800 ≤ c ∧ c ≤ 0xdfff))]
      rw [if_neg (by omega : ¬ c ≤ 0x7f)]
      rfl
    · by_cases h3 : c < 0x10000
      · rw [utf8EncodeChar, if_neg h1, if_neg h2, if_pos h3, List.cons_append,
          List.cons_append, List.cons_append, List.nil_append, getUtf8CodePoints]
        have hb0 : ¬ (0xe0 + c / 0x1000 < 0x80) := by omega
        have hcls1 : ¬ (0xc0 ≤ 0xe0 + c / 0x1000 ∧ 0xe0 + c / 0x1000 < 0xe0) := by omega
        have hcls2 : 0xe0 ≤ 0xe0 + c / 0x1000 ∧ 0xe0 + c / 0x1000 < 0xf0 := by omega
        rw [if_neg hb0]
        simp only [if_neg hcls1, if_pos hcls2]
        simp only [List.length_cons, List.take, List.drop, List.all_cons, List.all_nil]
        have hc1 : (decide (0x80 ≤ 0x80 + c / 0x40 % 0x40) &&
            decide (0x80 + c / 0x40 % 0x40 < 0xc0) &&
            (decide (0x80 ≤ 0x80 + c % 0x40) && decide (0x80 + c % 0x40 < 0xc0) && true))
            = true := by
          simp
          omega
        rw [if_neg (by omega : ¬ t.length + 1 + 1 < 2), if_pos hc1]
        simp only [List.foldl]
        have hres : ((0xe0 + c / 0x1000) % 2 ^ (8 - 2 - 1) * 0x40 +
            (0x80 + c / 0x40 % 0x40) % 0x40) * 0x40 + (0x80 + c % 0x40) % 0x40 = c := by
          have e1 : (0xe0 + c / 0x1000) % 2 ^ 5 = c / 0x1000 := by omega
          have e2 : (0x80 + c / 0x40 % 0x40) % 0x40 = c / 0x40 % 0x40 := by omega
          have e3 : (0x80 + c % 0x40) % 0x40 = c % 0x40 := by omega
          rw [e1, e2, e3]
          omega
        rw [hres]
        rw [if_neg (by omega : ¬ c > 0x10ffff)]
        rw [if_neg hsur]
        rw [if_neg (by omega : ¬ c ≤ 0x7ff)]
        rfl
      · rw [utf8EncodeChar, if_neg h1, if_neg h2, if_neg h3, List.cons_append,
          List.cons_append, List.cons_append, List.cons_append, List.nil_append,
          getUtf8CodePoints]
        have hb0 : ¬ (0xf0 + c / 0x40000 < 0x80) := by omega
        have hcls1 : ¬ (0xc0 ≤ 0xf0 + c / 0x40000 ∧ 0xf0 + c / 0x40000 < 0xe0) := by omega
        have hcls2 : ¬ (0xe0 ≤ 0xf0 + c / 0x40000 ∧ 0xf0 + c / 0x40000 < 0xf0) := by omega
        have hcls3 : 0xf0 ≤ 0xf0 + c / 0x40000 ∧ 0xf0 + c / 0x40000 < 0xf8 := by omega
        rw [if_neg hb0]
        simp only [if_neg hcls1, if_neg hcls2, if_pos hcls3]
        simp only [List.length_cons, List.take, List.drop, List.all_cons, List.all_nil]
        have hc1 : (decide (0x80 ≤ 0x80 + c / 0x1000 % 0x40) &&
            decide (0x80 + c / 0x1000 % 0x40 < 0xc0) &&
            (decide (0x80 ≤ 0x80 + c / 0x40 % 0x40) &&
              decide (0x80 + c / 0x40 % 0x40 < 0xc0) &&
              (decide (0x80 ≤ 0x80 + c % 0x40) && decide (0x80 + c % 0x40 < 0xc0) && true)))
            = true := by
          simp
          omega
        rw [if_neg (by omega : ¬ t.length + 1 + 1 + 1 < 3), if_pos hc1]
        simp only [List.foldl]
        have hres : (((0xf0 + c / 0x40000) % 2 ^ (8 - 3 - 1) * 0x40 +
            (0x80 + c / 0x1000 % 0x40) % 0x40) * 0x40 +
            (0x80 + c / 0x40 % 0x40) % 0x40) * 0x40 + (0x80 + c % 0x40) % 0x40 = c := by
          have e1 : (0xf0 + c / 0x40000) % 2 ^ 4 = c / 0x40000 := by omega
          have e2 : (0x80 + c / 0x1000 % 0x40) % 0x40 = c / 0x1000 % 0x40 := by omega
          have e3 : (0x80 + c / 0x40 % 0x40) % 0x40 = c / 0x40 % 0x40 := by omega
          have e4 : (0x80 + c % 0x40) % 0x40 = c % 0x40 := by omega
          rw [e1, e2, e3, e4]
          omega
        rw [hres]
        rw [if_neg (by omega : ¬ c > 0x10ffff)]
        rw [if_neg (by omega : ¬ (0xd800 ≤ c ∧ c ≤ 0xdfff))]
        rw [if_neg (by omega : ¬ c ≤ 0xffff)]
        rfl

/-- UTF-8 round-trip: decoding the encoding of a well-formed string yields
its scalar values back. -/
theorem getUtf8CodePoints_flatMap (s : List Nat)
    (h : ∀ c ∈ s, c < 0x110000 ∧ ¬(0xd800 ≤ c ∧ c ≤ 0xdfff)) :
    getUtf8CodePoints (s.flatMap utf8EncodeChar) = .ok s := by
  induction s with
  | nil => rw [List.flatMap_nil, getUtf8CodePoints]
  | cons c cs ih =>
    have hc := h c (List.mem_cons_self c cs)
    rw [List.flatMap_cons, utf8_decode_char c hc.1 hc.2,
      ih (fun x hx => h x (List.mem_cons_of_mem c hx))]
    rfl

/-- `toUtf8Bytes` succeeds exactly on well-formed strings. -/
theorem toUtf8Bytes_ok (s : List Nat)
    (h : ∀ c ∈ s, c < 0x110000 ∧ ¬(0xd800 ≤ c ∧ c ≤ 0xdfff)) :
    toUtf8Bytes s = .ok (s.flatMap utf8EncodeChar) := by
  rw [toUtf8Bytes, if_pos]
  rw [List.all_eq_true]
  intro c hc
  have hh := h c hc
  simp only [Bool.and_eq_true, decide_eq_true_eq, Bool.not_eq_true]
  refine ⟨hh.1, ?_⟩
  have hd2 : c < 0xd800 ∨ 0xdfff < c := by
    have := hh.2
    omega
  rcases hd2 with h2 | h2
  · have hdec : decide (0xd800 ≤ c) = false := decide_eq_false (by omega)
    simp [hdec]
  · have hdec : decide (c ≤ 0xdfff) = false := decide_eq_false (by omega)
    simp [hdec]

theorem utf8EncodeChar_allBytes (c : Nat) (hlt : c < 0x110000) :
    AllBytes (utf8EncodeChar c) := by
  intro b hb
  rw [utf8EncodeChar] at hb
  split at hb <;> [skip; split at hb] <;> [skip; skip; split at hb] <;>
    simp only [List.mem_cons, List.mem_singleton, List.not_mem_nil] at hb <;>
    rcases hb with hb | hb | hb | hb | hb <;> first
      | omega
      | exact absurd hb (by simp)

theorem utf8_flatMap_allBytes (s : List Nat)
    (h : ∀ c ∈ s, c < 0x110000 ∧ ¬(0xd800 ≤ c ∧ c ≤ 0xdfff)) :
    AllBytes (s.flatMap utf8EncodeChar) := by
  intro b hb
  rw [List.mem_flatMap] at hb
  obtain ⟨c, hc, hbc⟩ := hb
  exact utf8EncodeChar_allBytes c (h c hc).1 b hbc

/-!
## Well-formed and round-trippable coders
-/

mutual

/-- Size validity as `_getCoder` enforces it: number widths 8..256 bits
(1..32 bytes), fixed-bytes lengths 1..32. -/
def Coder.validB : Coder → Bool
  | .num size _ => decide (1 ≤ size) && decide (size ≤ 32)
  | .fixedBytes size => decide (1 ≤ size) && decide (size ≤ 32)
  | .array c _ => Coder.validB c
  | .tuple cs => Coder.validListB cs
  | _ => true

def Coder.validListB : List Coder → Bool
  | [] => true
  | c :: cs => Coder.validB c && Coder.validListB cs

end

mutual

/-- Round-trippable coders: no `NullCoder` anywhere (its decoded `null` is
dropped by `unpack`, shifting positions), and no dynamic-length array whose
element type is static with zero encoded size (the `count * 32` sanity check
in `ArrayCoder.decode` rejects such encodings). -/
def Coder.sane : Coder → Bool
  | .nullC => false
  | .array c len => (len.isSome || Coder.dynamic c || Coder.staticSize c != 0) && Coder.sane c
  | .tuple cs => Coder.saneList cs
  | _ => true

def Coder.saneList : List Coder → Bool
  | [] => true
  | c :: cs => Coder.sane c && Coder.saneList cs

end

mutual

theorem staticSize_mod32 : ∀ c : Coder, Coder.staticSize c % 32 = 0
  | .address => by simp [Coder.staticSize]
  | .bool => by simp [Coder.staticSize]
  | .string => by simp [Coder.staticSize]
  | .bytes => by simp [Coder.staticSize]
  | .num _ _ => by simp [Coder.staticSize]
  | .fixedBytes _ => by simp [Coder.staticSize]
  | .nullC => by simp [Coder.staticSize]
  | .array c len => by
    rw [Coder.staticSize, Nat.mul_mod, staticSize_mod32 c, mul_zero, Nat.zero_mod]
  | .tuple cs => by
    rw [Coder.staticSize]
    exact staticSizeList_mod32 cs

theorem staticSizeList_mod32 : ∀ cs : List Coder, Coder.staticSizeList cs % 32 = 0
  | [] => rfl
  | c :: cs => by
    rw [Coder.staticSizeList, Nat.add_mod, staticSize_mod32 c, staticSizeList_mod32 cs]

end

/-!
## The round-trip invariant

`EncOk c v bs` collects what holds of the encoding `bs` of a well-typed
value: word alignment, byte validity, and decodability — a static coder
decodes in place at any position (consuming exactly its static size), a
dynamic coder decodes at the head of any sub-reader whose data starts with
`bs` (the bound `bs.length < 2 ^ 53` reflects that offset and length words
go through `toNumber`, and is vacuous for any buffer a JS runtime can
hold). -/

def StaticDec (c : Coder) (v : Value) (bs : Bytes) : Prop :=
  ∀ pre rest al,
    decodeCoder c { data := pre ++ (bs ++ rest), off := pre.length, allowLoose := al } =
      .ok (toD v) { data := pre ++ (bs ++ rest), off := pre.length + bs.length, allowLoose := al }

def DynDec (c : Coder) (v : Value) (bs : Bytes) : Prop :=
  ∀ rest al, (decodeCoder c { data := bs ++ rest, off := 0, allowLoose := al }).val = .ok (toD v)

def EncOk (c : Coder) (v : Value) (bs : Bytes) : Prop :=
  bs.length % 32 = 0 ∧ AllBytes bs ∧ toD v ≠ .nullV ∧
  (c.dynamic = true → bs.length < 2 ^ 53 → DynDec c v bs) ∧
  (c.dynamic = false → bs.length = c.staticSize ∧ StaticDec c v bs)

/-- The per-member encodings of one `pack` level, each member's bytes
satisfying the round-trip invariant. -/
inductive PartsOk : List Coder → List Value → List (Bool × Bytes) → Prop where
  | nil : PartsOk [] [] []
  | cons {c : Coder} {v : Value} {bs : Bytes} {cs : List Coder} {vs : List Value}
      {parts : List (Bool × Bytes)} :
      EncOk c v bs → PartsOk cs vs parts →
      PartsOk (c :: cs) (v :: vs) ((c.dynamic, bs) :: parts)

/-!
## `NumberCoder` arithmetic round-trip
-/

theorem num_roundtrip_unsigned (m : Nat) (z : Int) (h1 : 0 ≤ z) (h2 : z ≤ 2 ^ m - 1) :
    ((((maskI m (toTwosI m z)).toNat : Nat) : Int) % 2 ^ m : Int) = z := by
  have hz : toTwosI m z = z := by rw [toTwosI, if_neg (by omega)]
  have hlt : z < 2 ^ m := by omega
  have hmask : maskI m z = z := by
    rw [maskI, Int.emod_eq_of_lt h1 hlt]
  rw [hz, hmask, Int.toNat_of_nonneg h1, Int.emod_eq_of_lt h1 hlt]

theorem num_roundtrip_signed (m : Nat) (z : Int) (hm1 : 1 ≤ m) (hm2 : m ≤ 256)
    (h1 : -(2 ^ (m - 1)) ≤ z) (h2 : z ≤ 2 ^ (m - 1) - 1) :
    fromTwosI m
        ((((toTwosI (8 * 32) (fromTwosI m (maskI m (toTwosI m z)))).toNat : Nat) : Int)
          % 2 ^ m : Int) = z := by
  have hpow : (2 : Int) ^ m = 2 ^ (m - 1) * 2 := by
    conv_lhs => rw [show m = (m - 1) + 1 by omega]
    rw [pow_succ]
  have hP : (0 : Int) < 2 ^ (m - 1) := by positivity
  have hdvd : (2 : Int) ^ 256 = 2 ^ m * 2 ^ (256 - m) := by
    rw [← pow_add]
    congr 1
    omega
  have hK : (0 : Int) < 2 ^ (256 - m) := by positivity
  have hfromto : fromTwosI m (maskI m (toTwosI m z)) = z := by
    by_cases hz : z < 0
    · have hA : toTwosI m z = z + 2 ^ m := by rw [toTwosI, if_pos hz]
      have hAr : (0 : Int) ≤ z + 2 ^ m ∧ z + 2 ^ m < 2 ^ m := by
        constructor <;> omega
      rw [hA, maskI, Int.emod_eq_of_lt hAr.1 hAr.2, fromTwosI, if_pos (by omega)]
      omega
    · have hA : toTwosI m z = z := by rw [toTwosI, if_neg hz]
      rw [hA, maskI, Int.emod_eq_of_lt (by omega) (by omega), fromTwosI, if_neg (by omega)]
  rw [hfromto]
  by_cases hz : z < 0
  · have hW : toTwosI (8 * 32) z = z + 2 ^ 256 := by
      rw [toTwosI, if_pos hz]
    have hWr : (0 : Int) ≤ z + 2 ^ 256 := by
      have : (2 : Int) ^ m ≤ 2 ^ 256 := pow_le_pow_right₀ (by norm_num) hm2
      omega
    rw [hW, Int.toNat_of_nonneg hWr]
    rw [hdvd, Int.add_mul_emod_self_left]
    have hre : z % 2 ^ m = z + 2 ^ m := by
      have e1 : z % 2 ^ m = (z + 2 ^ m * 1) % 2 ^ m := (Int.add_mul_emod_self_left z (2 ^ m) 1).symm
      rw [e1, mul_one, Int.emod_eq_of_lt (by omega) (by omega)]
    rw [hre, fromTwosI, if_pos (by omega)]
    omega
  · have hW : toTwosI (8 * 32) z = z := by rw [toTwosI, if_neg hz]
    rw [hW, Int.toNat_of_nonneg (by omega)]
    rw [Int.emod_eq_of_lt (by omega) (by omega)]
    rw [fromTwosI, if_neg (by omega)]

/-!
## Evaluation lemmas for the mutually recursive coder functions
-/

@[simp] theorem dynamic_address : Coder.dynamic .address = false := by
  rw [Coder.dynamic] <;> simp

@[simp] theorem dynamic_bool : Coder.dynamic .bool = false := by
  rw [Coder.dynamic] <;> simp

@[simp] theorem dynamic_string : Coder.dynamic .string = true := by
  rw [Coder.dynamic]

@[simp] theorem dynamic_bytes : Coder.dynamic .bytes = true := by
  rw [Coder.dynamic]

@[simp] theorem dynamic_num (s : Nat) (sg : Bool) : Coder.dynamic (.num s sg) = false := by
  rw [Coder.dynamic] <;> simp

@[simp] theorem dynamic_fixedBytes (s : Nat) : Coder.dynamic (.fixedBytes s) = false := by
  rw [Coder.dynamic] <;> simp

@[simp] theorem dynamic_null : Coder.dynamic .nullC = false := by
  rw [Coder.dynamic] <;> simp

@[simp] theorem dynamic_array (c : Coder) (len : Option Nat) :
    Coder.dynamic (.array c len) = (len.isNone || Coder.dynamic c) := by
  rw [Coder.dynamic]

@[simp] theorem dynamic_tuple (cs : List Coder) :
    Coder.dynamic (.tuple cs) = Coder.anyDynamic cs := by
  rw [Coder.dynamic]

@[simp] theorem anyDynamic_nil : Coder.anyDynamic [] = false := by
  rw [Coder.anyDynamic]

@[simp] theorem anyDynamic_cons (c : Coder) (cs : List Coder) :
    Coder.anyDynamic (c :: cs) = (Coder.dynamic c || Coder.anyDynamic cs) := by
  rw [Coder.anyDynamic]

@[simp] theorem staticSize_address : Coder.staticSize .address = 32 := by
  rw [Coder.staticSize] <;> simp

@[simp] theorem staticSize_bool : Coder.staticSize .bool = 32 := by
  rw [Coder.staticSize] <;> simp

@[simp] theorem staticSize_string : Coder.staticSize .string = 32 := by
  rw [Coder.staticSize] <;> simp

@[simp] theorem staticSize_bytes : Coder.staticSize .bytes = 32 := by
  rw [Coder.staticSize] <;> simp

@[simp] theorem staticSize_num (s : Nat) (sg : Bool) : Coder.staticSize (.num s sg) = 32 := by
  rw [Coder.staticSize] <;> simp

@[simp] theorem staticSize_fixedBytes (s : Nat) : Coder.staticSize (.fixedBytes s) = 32 := by
  rw [Coder.staticSize] <;> simp

@[simp] theorem staticSize_null : Coder.staticSize .nullC = 0 := by
  rw [Coder.staticSize]

@[simp] theorem staticSize_array (c : Coder) (len : Option Nat) :
    Coder.staticSize (.array c len) = (len.getD 0) * Coder.staticSize c := by
  rw [Coder.staticSize]

@[simp] theorem staticSize_tuple (cs : List Coder) :
    Coder.staticSize (.tuple cs) = Coder.staticSizeList cs := by
  rw [Coder.staticSize]

@[simp] theorem staticSizeList_nil : Coder.staticSizeList [] = 0 := by
  rw [Coder.staticSizeList]

@[simp] theorem staticSizeList_cons (c : Coder) (cs : List Coder) :
    Coder.staticSizeList (c :: cs) = Coder.staticSize c + Coder.staticSizeList cs := by
  rw [Coder.staticSizeList]

@[simp] theorem sane_address : Coder.sane .address = true := by
  rw [Coder.sane] <;> simp

@[simp] theorem sane_bool : Coder.sane .bool = true := by
  rw [Coder.sane] <;> simp

@[simp] theorem sane_string : Coder.sane .string = true := by
  rw [Coder.sane] <;> simp

@[simp] theorem sane_bytes : Coder.sane .bytes = true := by
  rw [Coder.sane] <;> simp

@[simp] theorem sane_num (s : Nat) (sg : Bool) : Coder.sane (.num s sg) = true := by
  rw [Coder.sane] <;> simp

@[simp] theorem sane_fixedBytes (s : Nat) : Coder.sane (.fixedBytes s) = true := by
  rw [Coder.sane] <;> simp

@[simp] theorem sane_null : Coder.sane .nullC = false := by
  rw [Coder.sane]

@[simp] theorem sane_array (c : Coder) (len : Option Nat) :
    Coder.sane (.array c len) =
      ((len.isSome || Coder.dynamic c || Coder.staticSize c != 0) && Coder.sane c) := by
  rw [Coder.sane]

@[simp] theorem sane_tuple (cs : List Coder) :
    Coder.sane (.tuple cs) = Coder.saneList cs := by
  rw [Coder.sane]

@[simp] theorem saneList_nil : Coder.saneList [] = true := by
  rw [Coder.saneList]

@[simp] theorem saneList_cons (c : Coder) (cs : List Coder) :
    Coder.saneList (c :: cs) = (Coder.sane c && Coder.saneList cs) := by
  rw [Coder.saneList]

@[simp] theorem validB_address : Coder.validB .address = true := by
  rw [Coder.validB] <;> simp

@[simp] theorem validB_bool : Coder.validB .bool = true := by
  rw [Coder.validB] <;> simp

@[simp] theorem validB_string : Coder.validB .string = true := by
  rw [Coder.validB] <;> simp

@[simp] theorem validB_bytes : Coder.validB .bytes = true := by
  rw [Coder.validB] <;> simp

@[simp] theorem validB_num (s : Nat) (sg : Bool) :
    Coder.validB (.num s sg) = (decide (1 ≤ s) && decide (s ≤ 32)) := by
  rw [Coder.validB]

@[simp] theorem validB_fixedBytes (s : Nat) :
    Coder.validB (.fixedBytes s) = (decide (1 ≤ s) && decide (s ≤ 32)) := by
  rw [Coder.validB]

@[simp] theorem validB_null : Coder.validB .nullC = true := by
  rw [Coder.validB] <;> simp

@[simp] theorem validB_array (c : Coder) (len : Option Nat) :
    Coder.validB (.array c len) = Coder.validB c := by
  rw [Coder.validB]

@[simp] theorem validB_tuple (cs : List Coder) :
    Coder.validB (.tuple cs) = Coder.validListB cs := by
  rw [Coder.validB]

@[simp] theorem validListB_nil : Coder.validListB [] = true := by
  rw [Coder.validListB]

@[simp] theorem validListB_cons (c : Coder) (cs : List Coder) :
    Coder.validListB (c :: cs) = (Coder.validB c && Coder.validListB cs) := by
  rw [Coder.validListB]

/-!
## Unfolding equations for the encoder

Named per-case equations (the well-founded mutual definition unfolds
cheaply in a goal, not in a hypothesis).
-/

theorem encEq_address (n : Nat) : encodeCoder .address (.addr n) =
    (if n < 2 ^ 160 then writeValue n else .error (.invalidArgument "invalid address")) := by
  rw [encodeCoder]

theorem encEq_bool (b : Bool) : encodeCoder .bool (.bool b) =
    writeValue (if b then 1 else 0) := by
  rw [encodeCoder]

theorem encEq_string (cps : List Nat) : encodeCoder .string (.str cps) =
    (do
      let bs ← toUtf8Bytes cps
      let lw ← writeValue bs.length
      Except.ok (lw ++ writeBytesPad bs)) := by
  rw [encodeCoder]

theorem encEq_bytes (bs : Bytes) : encodeCoder .bytes (.bytes bs) =
    (if bs.all (fun b => b < 256) then do
      let lw ← writeValue bs.length
      Except.ok (lw ++ writeBytesPad bs)
    else .error (.invalidArgument "invalid arrayify value")) := by
  rw [encodeCoder]

theorem encEq_num (size : Nat) (signed : Bool) (z : Int) :
    encodeCoder (.num size signed) (.int z) =
    (let maxUintValue : Int := maskI (32 * 8) (2 ^ 256 - 1)
     if signed then
       let bounds := maskI (size * 8 - 1) maxUintValue
       if z > bounds ∨ z < (bounds + 1) * (-1) then
         .error (.invalidArgument "value out-of-bounds")
       else
         writeValue (toTwosI (8 * 32)
           (fromTwosI (size * 8) (maskI (size * 8) (toTwosI (size * 8) z)))).toNat
     else
       if z < 0 ∨ z > maskI (size * 8) maxUintValue then
         .error (.invalidArgument "value out-of-bounds")
       else
         writeValue (maskI (size * 8) (toTwosI (size * 8) z)).toNat) := by
  rw [encodeCoder]

theorem encEq_fixedBytes (size : Nat) (bs : Bytes) :
    encodeCoder (.fixedBytes size) (.bytes bs) =
    (if bs.all (fun b => b < 256) then
      if bs.length ≠ size then .error (.invalidArgument "incorrect data length")
      else .ok (writeBytesPad bs)
    else .error (.invalidArgument "invalid arrayify value")) := by
  rw [encodeCoder]

theorem encEq_null : encodeCoder .nullC .nullV = .ok [] := by
  rw [encodeCoder]

theorem encEq_arrayF (c : Coder) (n : Nat) (vs : List Value) :
    encodeCoder (.array c (some n)) (.arr vs) =
    (if vs.length < n then .error (.missingArgument "missing argument: coder array")
     else if n < vs.length then .error (.unexpectedArgument "too many arguments: coder array")
     else do
       let parts ← encodeElems c vs
       assemble parts) := by
  rw [encodeCoder]

theorem encEq_arrayD (c : Coder) (vs : List Value) :
    encodeCoder (.array c none) (.arr vs) =
    (do
      let lw ← writeValue vs.length
      let parts ← encodeElems c vs
      let body ← assemble parts
      Except.ok (lw ++ body)) := by
  rw [encodeCoder]

theorem encEq_tuple (cs : List Coder) (vs : List Value) :
    encodeCoder (.tuple cs) (.tup vs) =
    (if cs.length ≠ vs.length then .error (.invalidArgument "types/value length mismatch")
     else do
       let parts ← encodeParts cs vs
       assemble parts) := by
  rw [encodeCoder]

theorem encPartsEq_nil : encodeParts [] [] = .ok [] := by
  rw [encodeParts]

theorem encPartsEq_cons (c : Coder) (v : Value) (cs : List Coder) (vs : List Value) :
    encodeParts (c :: cs) (v :: vs) =
    (do
      let bs ← encodeCoder c v
      let rest ← encodeParts cs vs
      Except.ok ((c.dynamic, bs) :: rest)) := by
  rw [encodeParts]

theorem encElemsEq_nil (c : Coder) : encodeElems c [] = .ok [] := by
  rw [encodeElems]

theorem encElemsEq_cons (c : Coder) (v : Value) (vs : List Value) :
    encodeElems c (v :: vs) =
    (do
      let bs ← encodeCoder c v
      let rest ← encodeElems c vs
      Except.ok ((c.dynamic, bs) :: rest)) := by
  rw [encodeElems]

/-!
## Leaf coders satisfy the round-trip invariant
-/

theorem writeValue_inv {n : Nat} {bs : Bytes} (h : writeValue n = .ok bs) :
    n < 2 ^ 256 ∧ bs = word32 n := by
  rw [writeValue] at h
  split at h
  · simp only [Except.ok.injEq] at h
    exact ⟨by assumption, h.symm⟩
  · exact absurd h (by simp)

theorem encOk_address {n : Nat} {bs : Bytes} (hn : n < 2 ^ 160)
    (henc : encodeCoder .address (.addr n) = .ok bs) : EncOk .address (.addr n) bs := by
  rw [encEq_address, if_pos hn] at henc
  obtain ⟨-, hbs⟩ := writeValue_inv henc
  subst hbs
  refine ⟨by rw [word32_length], word32_allBytes n, by simp [toD], ?_, ?_⟩
  · intro h
    rw [dynamic_address] at h
    exact absurd h (by simp)
  · intro _
    refine ⟨by rw [word32_length, staticSize_address], ?_⟩
    intro pre rest al
    rw [decodeCoder, readValue_at pre (word32 n) rest al pre.length rfl (word32_length n),
      bytesToNat_word32 n (lt_trans hn (by norm_num))]
    rw [word32_length]
    simp only [if_pos hn, toD_addr]

theorem encOk_bool {b : Bool} {bs : Bytes}
    (henc : encodeCoder .bool (.bool b) = .ok bs) : EncOk .bool (.bool b) bs := by
  rw [encEq_bool] at henc
  obtain ⟨-, hbs⟩ := writeValue_inv henc
  subst hbs
  refine ⟨by rw [word32_length], word32_allBytes _, by simp [toD], ?_, ?_⟩
  · intro h
    rw [dynamic_bool] at h
    exact absurd h (by simp)
  · intro _
    refine ⟨by rw [word32_length, staticSize_bool], ?_⟩
    intro pre rest al
    rw [decodeCoder, readValue_at pre _ rest al pre.length rfl (word32_length _),
      bytesToNat_word32 _ (by cases b <;> norm_num)]
    rw [word32_length]
    cases b <;> simp

theorem mask_maxUint (m : Nat) (hm : m ≤ 256) : maskI m ((2 : Int) ^ 256 - 1) = 2 ^ m - 1 := by
  rw [maskI]
  have hd : (2 : Int) ^ 256 = 2 ^ m * 2 ^ (256 - m) := by
    rw [← pow_add]
    congr 1
    omega
  have hP : (0 : Int) < 2 ^ m := by positivity
  have hK : (0 : Int) < 2 ^ (256 - m) := by positivity
  have e1 : (2 : Int) ^ 256 - 1 = 2 ^ m - 1 + 2 ^ m * (2 ^ (256 - m) - 1) := by
    rw [mul_sub, ← hd]
    ring
  rw [e1, Int.add_mul_emod_self_left]
  exact Int.emod_eq_of_lt (by omega) (by omega)

theorem encOk_num {size : Nat} {signed : Bool} {z : Int} {bs : Bytes}
    (hty : Typed (.num size signed) (.int z))
    (hvd : Coder.validB (.num size signed) = true)
    (henc : encodeCoder (.num size signed) (.int z) = .ok bs) :
    EncOk (.num size signed) (.int z) bs := by
  rw [validB_num] at hvd
  simp only [Bool.and_eq_true, decide_eq_true_eq] at hvd
  obtain ⟨hs1, hs2⟩ := hvd
  rw [encEq_num] at henc
  simp only at henc
  have hmax : maskI (32 * 8) ((2 : Int) ^ 256 - 1) = 2 ^ 256 - 1 := by
    rw [maskI]
    exact Int.emod_eq_of_lt (by positivity) (by norm_num)
  rw [hmax] at henc
  cases signed with
  | true =>
    rw [if_pos rfl] at henc
    cases hty with
    | numSigned h1 h2 =>
      rw [mask_maxUint (size * 8 - 1) (by omega)] at henc
      have hPpos : (0 : Int) < 2 ^ (size * 8 - 1) := by positivity
      rw [if_neg (by omega)] at henc
      obtain ⟨hlt, hbs⟩ := writeValue_inv henc
      subst hbs
      refine ⟨by rw [word32_length], word32_allBytes _, by simp, ?_, ?_⟩
      · intro h
        rw [dynamic_num] at h
        exact absurd h (by simp)
      · intro _
        refine ⟨by rw [word32_length, staticSize_num], ?_⟩
        intro pre rest al
        rw [decodeCoder, readValue_at pre _ rest al pre.length rfl (word32_length _),
          bytesToNat_word32 _ hlt]
        rw [word32_length]
        simp only [toD_int]
        rw [if_pos trivial]
        rw [num_roundtrip_signed (size * 8) z (by omega) (by omega) h1 h2]
  | false =>
    rw [if_neg (by simp)] at henc
    cases hty with
    | numUnsigned h1 h2 =>
      rw [mask_maxUint (size * 8) (by omega)] at henc
      have hPpos : (0 : Int) < 2 ^ (size * 8) := by positivity
      rw [if_neg (by omega)] at henc
      obtain ⟨hlt, hbs⟩ := writeValue_inv henc
      subst hbs
      refine ⟨by rw [word32_length], word32_allBytes _, by simp, ?_, ?_⟩
      · intro h
        rw [dynamic_num] at h
        exact absurd h (by simp)
      · intro _
        refine ⟨by rw [word32_length, staticSize_num], ?_⟩
        intro pre rest al
        rw [decodeCoder, readValue_at pre _ rest al pre.length rfl (word32_length _),
          bytesToNat_word32 _ hlt]
        rw [word32_length]
        simp only [toD_int]
        rw [if_neg (by simp : ¬ false = true)]
        rw [num_roundtrip_unsigned (size * 8) z h1 h2]


theorem encOk_fixedBytes {size : Nat} {data : Bytes} {bs : Bytes}
    (hlen : data.length = size) (hab : AllBytes data)
    (hvd : Coder.validB (.fixedBytes size) = true)
    (henc : encodeCoder (.fixedBytes size) (.bytes data) = .ok bs) :
    EncOk (.fixedBytes size) (.bytes data) bs := by
  rw [validB_fixedBytes] at hvd
  simp only [Bool.and_eq_true, decide_eq_true_eq] at hvd
  obtain ⟨hs1, hs2⟩ := hvd
  rw [encEq_fixedBytes] at henc
  rw [if_pos (by rw [List.all_eq_true]; intro b hb; simpa using hab b hb)] at henc
  rw [if_neg (by omega : ¬ data.length ≠ size)] at henc
  simp only [Except.ok.injEq] at henc
  subst henc
  have hc : ceil32 data.length = 32 := by
    rw [ceil32]
    omega
  refine ⟨?_, writeBytesPad_allBytes data hab, by simp, ?_, ?_⟩
  · rw [writeBytesPad_length, hc]
  · intro h
    rw [dynamic_fixedBytes] at h
    exact absurd h (by simp)
  · intro _
    refine ⟨by rw [writeBytesPad_length, hc, staticSize_fixedBytes], ?_⟩
    intro pre rest al
    have hw : (writeBytesPad data).length = ceil32 size := by
      rw [writeBytesPad_length, hc]
      rw [ceil32]
      omega
    rw [decodeCoder, readBytes_at pre (writeBytesPad data) rest al false size pre.length rfl hw]
    have htake : (writeBytesPad data).take size = data := by
      rw [← hlen]
      exact writeBytesPad_take data
    rw [htake]
    simp [toD_bytes]

theorem AllBytes_append {a b : Bytes} (ha : AllBytes a) (hb : AllBytes b) :
    AllBytes (a ++ b) := by
  intro x hx
  rcases List.mem_append.1 hx with h | h
  · exact ha x h
  · exact hb x h

theorem readValue_at0 (w rest : Bytes) (al : Bool) (hw : w.length = 32) :
    Reader.readValue { data := w ++ rest, off := 0, allowLoose := al } =
      .ok (bytesToNat w, { data := w ++ rest, off := 32, allowLoose := al }) := by
  have h := readValue_at [] w rest al 0 rfl hw
  simpa using h

theorem toNumber_ok (n : Nat) (h : n < 2 ^ 53) : toNumber n = .ok n := by
  unfold toNumber
  rw [if_pos h]

theorem toNumber_overflow (n : Nat) (h : ¬ n < 2 ^ 53) :
    toNumber n = .error (.numericFault "toNumber" "overflow") := by
  unfold toNumber
  rw [if_neg h]

theorem encOk_bytes {data bs : Bytes} (hab : AllBytes data)
    (henc : encodeCoder .bytes (.bytes data) = .ok bs) : EncOk .bytes (.bytes data) bs := by
  rw [encEq_bytes] at henc
  rw [if_pos (by rw [List.all_eq_true]; intro b hb; simpa using hab b hb)] at henc
  cases hwv : writeValue data.length with
  | error e =>
    rw [hwv] at henc
    simp [bind, Except.bind] at henc
  | ok lw =>
    rw [hwv] at henc
    simp only [bind, Except.bind, Except.ok.injEq] at henc
    obtain ⟨hlen256, hlw⟩ := writeValue_inv hwv
    subst hlw
    subst henc
    have hpadlen : (writeBytesPad data).length = ceil32 data.length := writeBytesPad_length data
    have hdatapad : data.length ≤ (writeBytesPad data).length := by
      rw [hpadlen]
      exact ceil32_ge data.length
    refine ⟨?_, AllBytes_append (word32_allBytes _) (writeBytesPad_allBytes data hab),
      by simp, ?_, ?_⟩
    · rw [List.length_append, word32_length, hpadlen]
      have := ceil32_mod data.length
      omega
    · intro _ hL rest al
      rw [List.length_append, word32_length] at hL
      rw [List.append_assoc]
      rw [decodeCoder, readValue_at0 _ _ al (word32_length _),
        bytesToNat_word32 _ hlen256]
      have ht := toNumber_ok data.length (by omega : data.length < 2 ^ 53)
      have hrb := readBytes_at (word32 data.length) (writeBytesPad data) rest al true
        data.length 32 (word32_length _).symm (by rw [hpadlen])
      simp only [ht, hrb, writeBytesPad_take, DecRes.val, toD_bytes]
    · intro h
      rw [dynamic_bytes] at h
      exact absurd h (by simp)

theorem encOk_string {cps : List Nat} {bs : Bytes}
    (hval : ∀ c ∈ cps, c < 0x110000 ∧ ¬(0xd800 ≤ c ∧ c ≤ 0xdfff))
    (henc : encodeCoder .string (.str cps) = .ok bs) : EncOk .string (.str cps) bs := by
  rw [encEq_string, toUtf8Bytes_ok cps hval] at henc
  simp only [bind, Except.bind] at henc
  cases hwv : writeValue (cps.flatMap utf8EncodeChar).length with
  | error e =>
    rw [hwv] at henc
    simp at henc
  | ok lw =>
    rw [hwv] at henc
    simp only [Except.ok.injEq] at henc
    obtain ⟨hlen256, hlw⟩ := writeValue_inv hwv
    subst hlw
    subst henc
    have hu := utf8_flatMap_allBytes cps hval
    have hpadlen : (writeBytesPad (cps.flatMap utf8EncodeChar)).length =
        ceil32 (cps.flatMap utf8EncodeChar).length := writeBytesPad_length _
    refine ⟨?_, AllBytes_append (word32_allBytes _) (writeBytesPad_allBytes _ hu),
      by simp, ?_, ?_⟩
    · rw [List.length_append, word32_length, hpadlen]
      have := ceil32_mod (cps.flatMap utf8EncodeChar).length
      omega
    · intro _ hL rest al
      rw [List.length_append, word32_length] at hL
      have hdatapad : (cps.flatMap utf8EncodeChar).length ≤
          (writeBytesPad (cps.flatMap utf8EncodeChar)).length := by
        rw [hpadlen]
        exact ceil32_ge _
      rw [List.append_assoc]
      rw [decodeCoder, readValue_at0 _ _ al (word32_length _),
        bytesToNat_word32 _ hlen256]
      have ht := toNumber_ok (cps.flatMap utf8EncodeChar).length (by omega)
      have hrb := readBytes_at (word32 (cps.flatMap utf8EncodeChar).length)
        (writeBytesPad (cps.flatMap utf8EncodeChar)) rest al true
        (cps.flatMap utf8EncodeChar).length 32 (word32_length _).symm (by rw [hpadlen])
      simp only [ht, hrb, writeBytesPad_take, getUtf8CodePoints_flatMap cps hval,
        DecRes.val, toD_str]
    · intro h
      rw [dynamic_string] at h
      exact absurd h (by simp)

/-!
## Structure of the assembled buffers
-/

theorem pushValue_ne {v : DVal} (h : v ≠ .nullV) (vs : List DVal) :
    pushValue v vs = v :: vs := by
  cases v <;> first
    | rfl
    | exact absurd rfl h

theorem drop_append_len (a b : Bytes) (k : Nat) : (a ++ b).drop (a.length + k) = b.drop k := by
  induction a with
  | nil => simp
  | cons x a ih =>
    have e : (x :: a).length + k = a.length + k + 1 := by
      simp only [List.length_cons]
      omega
    rw [e, List.cons_append, List.drop_succ_cons, ih]

theorem headLength_cons (p : Bool × Bytes) (parts : List (Bool × Bytes)) :
    headLength (p :: parts) = (if p.1 then 32 else p.2.length) + headLength parts := by
  simp [headLength]

theorem assemble_inv {parts : List (Bool × Bytes)} {bs : Bytes}
    (h : assemble parts = .ok bs) :
    ∃ S D, assembleGo (headLength parts) parts 0 = .ok (S, D) ∧ bs = S ++ D := by
  rw [assemble] at h
  cases hgo : assembleGo (headLength parts) parts 0 with
  | error e =>
    rw [hgo] at h
    simp [bind, Except.bind] at h
  | ok sd =>
    obtain ⟨S, D⟩ := sd
    rw [hgo] at h
    simp only [bind, Except.bind, Except.ok.injEq] at h
    exact ⟨S, D, rfl, h.symm⟩

theorem assembleGo_props {cs : List Coder} {vs : List Value} {parts : List (Bool × Bytes)}
    (hp : PartsOk cs vs parts) :
    ∀ {hl tailOff : Nat} {S D : Bytes}, assembleGo hl parts tailOff = .ok (S, D) →
      S.length = headLength parts ∧ S.length % 32 = 0 ∧ D.length % 32 = 0 ∧
      AllBytes S ∧ AllBytes D := by
  induction hp with
  | nil =>
    intro hl tailOff S D h
    rw [assembleGo] at h
    simp only [Except.ok.injEq, Prod.mk.injEq] at h
    obtain ⟨h1, h2⟩ := h
    rw [← h1, ← h2]
    refine ⟨by simp [headLength], by simp, by simp, ?_, ?_⟩ <;>
      (intro b hb; simp at hb)
  | cons henc hrest ih =>
    rename_i c v bs cs vs parts
    intro hl tailOff S D h
    rw [assembleGo] at h
    obtain ⟨hmod, hab, hnn, hdy, hst⟩ := henc
    by_cases hd : c.dynamic = true
    · rw [hd, if_pos rfl] at h
      cases hwv : writeValue (hl + tailOff) with
      | error e =>
        rw [hwv] at h
        simp [bind, Except.bind] at h
      | ok w =>
        rw [hwv] at h
        cases hgo : assembleGo hl parts (tailOff + bs.length) with
        | error e =>
          rw [hgo] at h
          simp [bind, Except.bind] at h
        | ok sd =>
          obtain ⟨s, d⟩ := sd
          rw [hgo] at h
          simp only [bind, Except.bind, Except.ok.injEq, Prod.mk.injEq] at h
          obtain ⟨h1, h2⟩ := h
          obtain ⟨hs1, hs2, hs3, hs4, hs5⟩ := ih hgo
          have hwlen : w.length = 32 := by
            rw [(writeValue_inv hwv).2]
            exact word32_length _
          rw [← h1, ← h2]
          refine ⟨?_, ?_, ?_, ?_, ?_⟩
          · rw [List.length_append, hwlen, headLength_cons, hs1, hd]
            simp
          · rw [List.length_append, hwlen]
            omega
          · rw [List.length_append]
            omega
          · refine AllBytes_append ?_ hs4
            rw [(writeValue_inv hwv).2]
            exact word32_allBytes _
          · exact AllBytes_append hab hs5
    · rw [Bool.not_eq_true] at hd
      rw [hd, if_neg (by simp)] at h
      cases hgo : assembleGo hl parts tailOff with
      | error e =>
        rw [hgo] at h
        simp [bind, Except.bind] at h
      | ok sd =>
        obtain ⟨s, d⟩ := sd
        rw [hgo] at h
        simp only [bind, Except.bind, Except.ok.injEq, Prod.mk.injEq] at h
        obtain ⟨h1, h2⟩ := h
        obtain ⟨hs1, hs2, hs3, hs4, hs5⟩ := ih hgo
        rw [← h1, ← h2]
        refine ⟨?_, ?_, hs3, AllBytes_append hab hs4, hs5⟩
        · rw [List.length_append, headLength_cons, hs1, hd]
          simp
        · rw [List.length_append]
          omega

theorem partsOk_headLength_static {cs : List Coder} {vs : List Value}
    {parts : List (Bool × Bytes)} (hp : PartsOk cs vs parts)
    (hst : Coder.anyDynamic cs = false) : headLength parts = Coder.staticSizeList cs := by
  induction hp with
  | nil => simp [headLength]
  | cons henc hrest ih =>
    rename_i c v bs cs vs parts
    rw [anyDynamic_cons, Bool.or_eq_false_iff] at hst
    obtain ⟨hd, hrest2⟩ := hst
    obtain ⟨hmod, hab, hnn, hdy, hstat⟩ := henc
    obtain ⟨hsz, -⟩ := hstat hd
    rw [headLength_cons, staticSizeList_cons, ih hrest2, hd]
    simp [hsz.symm]

theorem partsOk_length {cs : List Coder} {vs : List Value}
    {parts : List (Bool × Bytes)} (hp : PartsOk cs vs parts) :
    parts.length = cs.length ∧ vs.length = cs.length := by
  induction hp with
  | nil => exact ⟨rfl, rfl⟩
  | cons henc hrest ih => simp [ih.1, ih.2]

theorem partsOk_headLength_ge {cs : List Coder} {vs : List Value}
    {parts : List (Bool × Bytes)} (hp : PartsOk cs vs parts)
    (h : ∀ c ∈ cs, c.dynamic = true ∨ 32 ≤ c.staticSize) :
    32 * cs.length ≤ headLength parts := by
  induction hp with
  | nil => simp [headLength]
  | cons henc hrest ih =>
    rename_i c v bs cs vs parts
    have hc := h c (List.mem_cons_self c cs)
    have hi := ih (fun x hx => h x (List.mem_cons_of_mem c hx))
    obtain ⟨hmod, hab, hnn, hdy, hstat⟩ := henc
    rw [headLength_cons, List.length_cons]
    rcases hc with hc | hc
    · rw [hc]
      simp only [if_pos trivial]
      omega
    · cases hcd : c.dynamic with
      | true =>
        simp only [if_pos trivial]
        omega
      | false =>
        obtain ⟨hsz, -⟩ := hstat hcd
        simp only [Bool.false_eq_true, if_false]
        omega

/-!
## `unpack` decodes a packed level
-/

theorem readValue_atEq (al : Bool) {d P w R : Bytes} {off : Nat}
    (hd : d = P ++ (w ++ R)) (hoff : off = P.length) (hw : w.length = 32) :
    Reader.readValue { data := d, off := off, allowLoose := al } =
      .ok (bytesToNat w, { data := d, off := off + 32, allowLoose := al }) := by
  subst hd
  exact readValue_at P w R al off hoff hw

theorem staticDec_atEq (al : Bool) {c : Coder} {v : Value} {bs : Bytes} (h : StaticDec c v bs)
    {d P R : Bytes} {off : Nat}
    (hd : d = P ++ (bs ++ R)) (hoff : off = P.length) :
    decodeCoder c { data := d, off := off, allowLoose := al } =
      .ok (toD v) { data := d, off := off + bs.length, allowLoose := al } := by
  subst hd
  subst hoff
  exact h P R al

theorem subReader_atEq (al : Bool) {L A B : Bytes} {k : Nat}
    (hL : L = A ++ B) (hk : k = A.length) :
    Reader.subReader { data := L, off := 0, allowLoose := al } k =
      { data := B, off := 0, allowLoose := al } := by
  subst hL
  subst hk
  rw [Reader.subReader]
  simp only [Nat.zero_add]
  have h := drop_append_len A B 0
  rw [Nat.add_zero, List.drop_zero] at h
  rw [h]

theorem dynDec_cases (al : Bool) {c : Coder} {v : Value} {bs : Bytes} (h : DynDec c v bs)
    {R d : Bytes} (hd : d = bs ++ R) :
    ∃ r', decodeCoder c { data := d, off := 0, allowLoose := al } = .ok (toD v) r' := by
  subst hd
  have hv := h R al
  cases hdec : decodeCoder c { data := bs ++ R, off := 0, allowLoose := al } with
  | ok u r' =>
    rw [hdec] at hv
    simp only [DecRes.val, Except.ok.injEq] at hv
    exact ⟨r', by rw [hv]⟩
  | err e r' =>
    rw [hdec] at hv
    simp [DecRes.val] at hv

theorem unpack_partsOk {cs : List Coder} {vs : List Value} {parts : List (Bool × Bytes)}
    (hp : PartsOk cs vs parts) :
    ∀ (hl : Nat) (pre preH S preT D rest : Bytes) (al : Bool) (L : Bytes) (o1 o2 : Nat),
      assembleGo hl parts preT.length = .ok (S, D) →
      hl = preH.length + S.length →
      (Coder.anyDynamic cs = true →
        preH.length + S.length + preT.length + D.length < 2 ^ 53) →
      L = preH ++ (S ++ (preT ++ (D ++ rest))) →
      o1 = pre.length + preH.length →
      o2 = pre.length + preH.length + S.length →
      unpackList cs { data := L, off := 0, allowLoose := al }
          { data := pre ++ L, off := o1, allowLoose := al } =
        .ok (vs.map toD) { data := pre ++ L, off := o2, allowLoose := al } := by
  induction hp with
  | nil =>
    intro hl pre preH S preT D rest al L o1 o2 hgo hhl hbound hL ho1 ho2
    rw [assembleGo] at hgo
    simp only [Except.ok.injEq, Prod.mk.injEq] at hgo
    obtain ⟨h1, h2⟩ := hgo
    rw [unpackList]
    have ho12 : o2 = o1 := by
      rw [ho1, ho2, ← h1]
      simp
    rw [ho12, List.map_nil]
  | cons henc hrest ih =>
    rename_i c v bs cs vs parts
    intro hl pre preH S preT D rest al L o1 o2 hgo hhl hbound hL ho1 ho2
    obtain ⟨hmod, hab, hnn, hdy, hstat⟩ := henc
    rw [assembleGo] at hgo
    rw [unpackList, decodeField]
    by_cases hd : c.dynamic = true
    · rw [hd, if_pos rfl] at hgo ⊢
      cases hwv : writeValue (hl + preT.length) with
      | error e =>
        rw [hwv] at hgo
        simp [bind, Except.bind] at hgo
      | ok w =>
        rw [hwv] at hgo
        cases hgo2 : assembleGo hl parts (preT.length + bs.length) with
        | error e =>
          rw [hgo2] at hgo
          simp [bind, Except.bind] at hgo
        | ok sd =>
          obtain ⟨S2, D2⟩ := sd
          rw [hgo2] at hgo
          simp only [bind, Except.bind, Except.ok.injEq, Prod.mk.injEq] at hgo
          obtain ⟨hS, hD⟩ := hgo
          obtain ⟨hoff256, hw⟩ := writeValue_inv hwv
          subst hw
          subst hS
          subst hD
          have hbnd := hbound (by rw [anyDynamic_cons, hd]; rfl)
          have hSlen : (word32 (hl + preT.length) ++ S2).length = 32 + S2.length := by
            rw [List.length_append, word32_length]
          have hDlen : (bs ++ D2).length = bs.length + D2.length := List.length_append bs D2
          have e1 := readValue_atEq al
            (show pre ++ L = (pre ++ preH) ++
                (word32 (hl + preT.length) ++ (S2 ++ (preT ++ ((bs ++ D2) ++ rest)))) by
              rw [hL]; simp [List.append_assoc])
            (show o1 = (pre ++ preH).length by rw [ho1]; simp)
            (word32_length _)
          have e2 := toNumber_ok (hl + preT.length)
            (by rw [hSlen] at hbnd; rw [hDlen] at hbnd; omega)
          have e3 := subReader_atEq al
            (show L = (preH ++ ((word32 (hl + preT.length) ++ S2) ++ preT)) ++
                (bs ++ (D2 ++ rest)) by rw [hL]; simp [List.append_assoc])
            (show hl + preT.length =
                (preH ++ ((word32 (hl + preT.length) ++ S2) ++ preT)).length by
              simp only [List.length_append, word32_length]
              rw [hhl, hSlen]
              omega)
          obtain ⟨r', hdec⟩ := dynDec_cases al
            (hdy hd (by rw [hSlen] at hbnd; rw [hDlen] at hbnd; omega))
            (rfl : bs ++ (D2 ++ rest) = bs ++ (D2 ++ rest))
          have e4 := ih hl pre (preH ++ word32 (hl + preT.length)) S2 (preT ++ bs) D2 rest al L
            (o1 + 32) o2
            (by rw [List.length_append]; exact hgo2)
            (by simp only [List.length_append, word32_length]; rw [hhl, hSlen]; omega)
            (fun hdyn => by
              simp only [List.length_append, word32_length]
              rw [hSlen] at hbnd
              rw [hDlen] at hbnd
              omega)
            (by rw [hL]; simp [List.append_assoc])
            (by rw [ho1]; simp only [List.length_append, word32_length]; omega)
            (by rw [ho2, hSlen]; simp only [List.length_append, word32_length]; omega)
          simp only [e1, bytesToNat_word32 _ hoff256, e2, e3, hdec, e4,
            pushValue_ne hnn, List.map_cons]
    · have hd0 : c.dynamic = false := by
        cases hcd : c.dynamic with
        | true => exact absurd hcd hd
        | false => rfl
      rw [hd0, if_neg (by simp)] at hgo ⊢
      cases hgo2 : assembleGo hl parts preT.length with
      | error e =>
        rw [hgo2] at hgo
        simp [bind, Except.bind] at hgo
      | ok sd =>
        obtain ⟨S2, D2⟩ := sd
        rw [hgo2] at hgo
        simp only [bind, Except.bind, Except.ok.injEq, Prod.mk.injEq] at hgo
        obtain ⟨hS, hD⟩ := hgo
        subst hS
        subst hD
        obtain ⟨hsz, hsd⟩ := hstat hd0
        have e0 := staticDec_atEq al hsd
          (show pre ++ L = (pre ++ preH) ++ (bs ++ (S2 ++ (preT ++ (D2 ++ rest)))) by
            rw [hL]; simp [List.append_assoc])
          (show o1 = (pre ++ preH).length by rw [ho1]; simp)
        have e4 := ih hl pre (preH ++ bs) S2 preT D2 rest al L (o1 + bs.length) o2
          hgo2
          (by rw [hhl]; simp only [List.length_append]; omega)
          (fun hdyn => by
            have hbnd := hbound (by rw [anyDynamic_cons, hdyn]; simp)
            simp only [List.length_append] at *
            omega)
          (by rw [hL]; simp [List.append_assoc])
          (by rw [ho1]; simp only [List.length_append]; omega)
          (by rw [ho2]; simp only [List.length_append]; omega)
        simp only [e0, e4, pushValue_ne hnn, List.map_cons]

/-!
## Helpers for the composite coders
-/

theorem subReader_mid (al : Bool) {d P R : Bytes} {off : Nat}
    (hd : d = P ++ R) (hoff : off = P.length) :
    Reader.subReader { data := d, off := off, allowLoose := al } 0 =
      { data := R, off := 0, allowLoose := al } := by
  subst hd
  subst hoff
  rw [Reader.subReader]
  have h := drop_append_len P R 0
  rw [Nat.add_zero, List.drop_zero] at h
  rw [Nat.add_zero, h]

theorem decodeElems_eq_unpackList (c : Coder) :
    ∀ (n : Nat) (base r : Reader),
      decodeElems c n base r = unpackList (List.replicate n c) base r := by
  intro n
  induction n with
  | zero =>
    intro base r
    rw [decodeElems, List.replicate_zero, unpackList]
  | succ n ih =>
    intro base r
    rw [decodeElems, List.replicate_succ, unpackList]
    cases decodeField c base r with
    | err e r1 => rfl
    | ok v r1 =>
      dsimp only
      rw [ih]

theorem assembleGo_static_snd {cs : List Coder} {vs : List Value}
    {parts : List (Bool × Bytes)} (hp : PartsOk cs vs parts)
    (hst : Coder.anyDynamic cs = false) :
    ∀ {hl t : Nat} {S D : Bytes}, assembleGo hl parts t = .ok (S, D) → D = [] := by
  induction hp with
  | nil =>
    intro hl t S D h
    rw [assembleGo] at h
    simp only [Except.ok.injEq, Prod.mk.injEq] at h
    exact h.2.symm
  | cons henc hrest ih =>
    rename_i c v bs cs vs parts
    intro hl t S D h
    rw [anyDynamic_cons, Bool.or_eq_false_iff] at hst
    rw [assembleGo, hst.1, if_neg (by simp)] at h
    cases hgo : assembleGo hl parts t with
    | error e =>
      rw [hgo] at h
      simp [bind, Except.bind] at h
    | ok sd =>
      obtain ⟨s, d⟩ := sd
      rw [hgo] at h
      simp only [bind, Except.bind, Except.ok.injEq, Prod.mk.injEq] at h
      rw [← h.2]
      exact ih hst.2 hgo

theorem staticSizeList_replicate (n : Nat) (c : Coder) :
    Coder.staticSizeList (List.replicate n c) = n * Coder.staticSize c := by
  induction n with
  | zero => simp
  | succ n ih =>
    rw [List.replicate_succ, staticSizeList_cons, ih]
    ring

theorem anyDynamic_replicate_false {c : Coder} (h : Coder.dynamic c = false) (n : Nat) :
    Coder.anyDynamic (List.replicate n c) = false := by
  induction n with
  | zero => simp
  | succ n ih =>
    rw [List.replicate_succ, anyDynamic_cons, h, ih]
    rfl

theorem partsOk_of_encodeParts :
    ∀ (cs : List Coder) (vs : List Value) (parts : List (Bool × Bytes)),
      encodeParts cs vs = .ok parts →
      (∀ p, p ∈ cs.zip vs → ∀ bs2, encodeCoder p.1 p.2 = .ok bs2 → EncOk p.1 p.2 bs2) →
      PartsOk cs vs parts := by
  intro cs
  induction cs with
  | nil =>
    intro vs parts henc hall
    cases vs with
    | nil =>
      rw [encPartsEq_nil] at henc
      simp only [Except.ok.injEq] at henc
      rw [← henc]
      exact PartsOk.nil
    | cons v vs =>
      rw [encodeParts] at henc
      · simp at henc
      all_goals (intros; simp_all)
  | cons c cs ih =>
    intro vs parts henc hall
    cases vs with
    | nil =>
      rw [encodeParts] at henc
      · simp at henc
      all_goals (intros; simp_all)
    | cons v vs =>
      rw [encPartsEq_cons] at henc
      cases he : encodeCoder c v with
      | error e =>
        rw [he] at henc
        simp [bind, Except.bind] at henc
      | ok bs2 =>
        rw [he] at henc
        cases hr : encodeParts cs vs with
        | error e =>
          rw [hr] at henc
          simp [bind, Except.bind] at henc
        | ok rest =>
          rw [hr] at henc
          simp only [bind, Except.bind, Except.ok.injEq] at henc
          rw [← henc]
          refine PartsOk.cons ?_ (ih vs rest hr ?_)
          · exact hall (c, v) (by rw [List.zip_cons_cons]; exact List.mem_cons_self _ _) bs2 he
          · intro p hp bs3 he3
            exact hall p (by rw [List.zip_cons_cons]; exact List.mem_cons_of_mem _ hp) bs3 he3

theorem partsOk_of_encodeElems (c : Coder) :
    ∀ (vs : List Value) (parts : List (Bool × Bytes)),
      encodeElems c vs = .ok parts →
      (∀ v, v ∈ vs → ∀ bs2, encodeCoder c v = .ok bs2 → EncOk c v bs2) →
      PartsOk (List.replicate vs.length c) vs parts := by
  intro vs
  induction vs with
  | nil =>
    intro parts henc hall
    rw [encElemsEq_nil] at henc
    simp only [Except.ok.injEq] at henc
    rw [← henc]
    exact PartsOk.nil
  | cons v vs ih =>
    intro parts henc hall
    rw [encElemsEq_cons] at henc
    cases he : encodeCoder c v with
    | error e =>
      rw [he] at henc
      simp [bind, Except.bind] at henc
    | ok bs2 =>
      rw [he] at henc
      cases hr : encodeElems c vs with
      | error e =>
        rw [hr] at henc
        simp [bind, Except.bind] at henc
      | ok rest =>
        rw [hr] at henc
        simp only [bind, Except.bind, Except.ok.injEq] at henc
        rw [← henc, List.length_cons, List.replicate_succ]
        refine PartsOk.cons ?_ (ih rest hr ?_)
        · exact hall v (List.mem_cons_self v vs) bs2 he
        · intro u hu bs3 he3
          exact hall u (List.mem_cons_of_mem v hu) bs3 he3

/-- A tuple whose members all satisfy the round-trip invariant satisfies it
itself once `pack` assembles them. -/
theorem encOk_tuple {cs : List Coder} {vs : List Value} {parts : List (Bool × Bytes)}
    {S D bs : Bytes}
    (hp : PartsOk cs vs parts)
    (hgo : assembleGo (headLength parts) parts 0 = .ok (S, D))
    (hbs : bs = S ++ D) :
    EncOk (.tuple cs) (.tup vs) bs := by
  obtain ⟨hS, hSmod, hDmod, hSab, hDab⟩ := assembleGo_props hp hgo
  subst hbs
  refine ⟨?_, AllBytes_append hSab hDab, by simp, ?_, ?_⟩
  · rw [List.length_append]
    omega
  · intro _ hlen rest al
    rw [List.length_append] at hlen
    rw [List.append_assoc, decodeCoder]
    have e0 := subReader_mid al
      (show S ++ (D ++ rest) = ([] : Bytes) ++ (S ++ (D ++ rest)) by simp)
      (show 0 = ([] : Bytes).length by simp)
    have e := unpack_partsOk hp (headLength parts) [] [] S [] D rest al
      (S ++ (D ++ rest)) 0 S.length
      hgo
      (by simp [hS])
      (fun _ => by simp only [List.length_nil]; omega)
      (by simp)
      (by simp)
      (by simp)
    simp only [List.nil_append] at e
    simp only [e0, e, DecRes.val, toD_tup]
  · intro hst
    have hanyd : Coder.anyDynamic cs = false := by
      rw [← dynamic_tuple]
      exact hst
    have hD : D = [] := assembleGo_static_snd hp hanyd hgo
    subst hD
    have hhs : headLength parts = Coder.staticSizeList cs :=
      partsOk_headLength_static hp hanyd
    refine ⟨?_, ?_⟩
    · rw [List.length_append, staticSize_tuple, ← hhs, ← hS]
      simp
    · intro pre rest al
      rw [List.append_nil, decodeCoder]
      have e0 := subReader_mid al
        (rfl : pre ++ (S ++ rest) = pre ++ (S ++ rest))
        (rfl : pre.length = pre.length)
      have e := unpack_partsOk hp (headLength parts) pre [] S [] [] rest al
        (S ++ rest) pre.length (pre.length + S.length)
        hgo
        (by simp [hS])
        (fun hc => by simp [hanyd] at hc)
        (by simp)
        (by simp)
        (by simp)
      simp only [e0, e, toD_tup]

/-- A fixed-length array whose elements all satisfy the round-trip invariant
satisfies it itself. -/
theorem encOk_arrayF {c : Coder} {n : Nat} {vs : List Value} {parts : List (Bool × Bytes)}
    {S D bs : Bytes}
    (hp : PartsOk (List.replicate n c) vs parts)
    (hgo : assembleGo (headLength parts) parts 0 = .ok (S, D))
    (hbs : bs = S ++ D) :
    EncOk (.array c (some n)) (.arr vs) bs := by
  obtain ⟨hS, hSmod, hDmod, hSab, hDab⟩ := assembleGo_props hp hgo
  subst hbs
  refine ⟨by rw [List.length_append]; omega, AllBytes_append hSab hDab, by simp, ?_, ?_⟩
  · intro _ hlen rest al
    rw [List.length_append] at hlen
    rw [List.append_assoc, decodeCoder]
    rw [decodeElems_eq_unpackList]
    have e0 := subReader_mid al
      (show S ++ (D ++ rest) = ([] : Bytes) ++ (S ++ (D ++ rest)) by simp)
      (show 0 = ([] : Bytes).length by simp)
    have e := unpack_partsOk hp (headLength parts) [] [] S [] D rest al
      (S ++ (D ++ rest)) 0 S.length
      hgo
      (by simp [hS])
      (fun _ => by simp only [List.length_nil]; omega)
      (by simp)
      (by simp)
      (by simp)
    simp only [List.nil_append] at e
    simp only [e0, e, DecRes.val, toD_arr]
  · intro hst
    rw [dynamic_array] at hst
    simp only [Option.isNone_some, Bool.false_or] at hst
    have hanyd := anyDynamic_replicate_false hst n
    have hD : D = [] := assembleGo_static_snd hp hanyd hgo
    subst hD
    have hhs : headLength parts = n * Coder.staticSize c := by
      rw [partsOk_headLength_static hp hanyd, staticSizeList_replicate]
    refine ⟨?_, ?_⟩
    · rw [List.length_append, staticSize_array]
      simp only [Option.getD_some]
      rw [← hhs, ← hS]
      simp
    · intro pre rest al
      rw [List.append_nil, decodeCoder]
      rw [decodeElems_eq_unpackList]
      have e0 := subReader_mid al
        (rfl : pre ++ (S ++ rest) = pre ++ (S ++ rest))
        (rfl : pre.length = pre.length)
      have e := unpack_partsOk hp (headLength parts) pre [] S [] [] rest al
        (S ++ rest) pre.length (pre.length + S.length)
        hgo
        (by simp [hS])
        (fun hc => by simp [hanyd] at hc)
        (by simp)
        (by simp)
        (by simp)
      simp only [e0, e, toD_arr]

/-- A dynamic array whose elements all satisfy the round-trip invariant
satisfies it itself: the length word is written first, the `count * 32`
sanity check passes because every sane element occupies at least one slot
in the head. -/
theorem encOk_arrayDn {c : Coder} {vs : List Value} {parts : List (Bool × Bytes)}
    {lw S D bs : Bytes}
    (hp : PartsOk (List.replicate vs.length c) vs parts)
    (hsane : Coder.sane (.array c none) = true)
    (hlw : writeValue vs.length = .ok lw)
    (hgo : assembleGo (headLength parts) parts 0 = .ok (S, D))
    (hbs : bs = lw ++ (S ++ D)) :
    EncOk (.array c none) (.arr vs) bs := by
  obtain ⟨hS, hSmod, hDmod, hSab, hDab⟩ := assembleGo_props hp hgo
  obtain ⟨hv256, hlww⟩ := writeValue_inv hlw
  subst hlww
  subst hbs
  have helem : ∀ x ∈ List.replicate vs.length c,
      Coder.dynamic x = true ∨ 32 ≤ Coder.staticSize x := by
    intro x hx
    rw [List.eq_of_mem_replicate hx]
    cases hcd : Coder.dynamic c with
    | true => exact Or.inl rfl
    | false =>
      right
      rw [sane_array] at hsane
      simp only [hcd, Option.isSome_none, Bool.false_or, Bool.or_false,
        Bool.and_eq_true, bne_iff_ne, ne_eq] at hsane
      have hm := staticSize_mod32 c
      omega
  have hge := partsOk_headLength_ge hp helem
  rw [List.length_replicate] at hge
  refine ⟨?_, AllBytes_append (word32_allBytes _) (AllBytes_append hSab hDab),
    by simp, ?_, ?_⟩
  · rw [List.length_append, List.length_append, word32_length]
    omega
  · intro _ hlen rest al
    rw [List.length_append, List.length_append, word32_length] at hlen
    simp only [List.append_assoc]
    rw [decodeCoder]
    have e1 := readValue_atEq al
      (show word32 vs.length ++ (S ++ (D ++ rest)) =
        ([] : Bytes) ++ (word32 vs.length ++ (S ++ (D ++ rest))) by simp)
      (show 0 = ([] : Bytes).length by simp)
      (word32_length vs.length)
    have e2 := toNumber_ok vs.length (by omega)
    have hneg : ¬ vs.length * 32 > (word32 vs.length ++ (S ++ (D ++ rest))).length := by
      simp only [List.length_append, word32_length]
      omega
    have e3 := subReader_mid al
      (rfl : word32 vs.length ++ (S ++ (D ++ rest)) =
        word32 vs.length ++ (S ++ (D ++ rest)))
      ((word32_length vs.length).symm)
    have e := unpack_partsOk hp (headLength parts) (word32 vs.length) [] S [] D rest al
      (S ++ (D ++ rest)) 32 (32 + S.length)
      hgo
      (by simp [hS])
      (fun _ => by simp only [List.length_nil]; omega)
      (by simp)
      (by simp [word32_length])
      (by simp [word32_length])
    simp only [e1, bytesToNat_word32 vs.length hv256, e2, Nat.zero_add,
      if_neg hneg, e3, decodeElems_eq_unpackList c, e, DecRes.val, toD_arr]
  · intro hst
    rw [dynamic_array] at hst
    simp at hst

theorem validListB_mem {cs : List Coder} (h : Coder.validListB cs = true) :
    ∀ c ∈ cs, Coder.validB c = true := by
  induction cs with
  | nil => intro c hc; simp at hc
  | cons c0 cs ih =>
    rw [validListB_cons, Bool.and_eq_true] at h
    intro c hc
    rcases List.mem_cons.mp hc with hc | hc
    · rw [hc]; exact h.1
    · exact ih h.2 c hc

theorem saneList_mem {cs : List Coder} (h : Coder.saneList cs = true) :
    ∀ c ∈ cs, Coder.sane c = true := by
  induction cs with
  | nil => intro c hc; simp at hc
  | cons c0 cs ih =>
    rw [saneList_cons, Bool.and_eq_true] at h
    intro c hc
    rcases List.mem_cons.mp hc with hc | hc
    · rw [hc]; exact h.1
    · exact ih h.2 c hc

/-- Main round-trip induction: a successful encode of a well-typed value
under a valid, sane coder satisfies the full round-trip invariant. -/
theorem encOk_of_encode :
    ∀ (N : Nat) (v : Value) (c : Coder) (bs : Bytes),
      sizeOf v < N → Typed c v → Coder.validB c = true → Coder.sane c = true →
      encodeCoder c v = .ok bs → EncOk c v bs := by
  intro N
  induction N with
  | zero => intro v c bs h; omega
  | succ N ihN =>
    intro v c bs hsz hty hvd hsane henc
    cases hty with
    | address hn => exact encOk_address hn henc
    | bool => exact encOk_bool henc
    | numSigned h1 h2 => exact encOk_num (Typed.numSigned h1 h2) hvd henc
    | numUnsigned h1 h2 => exact encOk_num (Typed.numUnsigned h1 h2) hvd henc
    | fixedBytes hlen hab => exact encOk_fixedBytes hlen hab hvd henc
    | bytes hab => exact encOk_bytes hab henc
    | str hval => exact encOk_string hval henc
    | nullV =>
      rw [sane_null] at hsane
      exact absurd hsane (by simp)
    | arrayF hn hall =>
      rename_i c' n vs
      subst hn
      rw [validB_array] at hvd
      rw [sane_array, Bool.and_eq_true] at hsane
      rw [encEq_arrayF, if_neg (by omega), if_neg (by omega)] at henc
      cases hep : encodeElems c' vs with
      | error e =>
        rw [hep] at henc
        simp [bind, Except.bind] at henc
      | ok parts =>
        rw [hep] at henc
        simp only [bind, Except.bind] at henc
        obtain ⟨S, D, hgo, hbs⟩ := assemble_inv henc
        have hszv : sizeOf (Value.arr vs) = 1 + sizeOf vs := by simp
        have hp := partsOk_of_encodeElems c' vs parts hep
          (fun u hu bs2 he2 =>
            ihN u c' bs2
              (by have := List.sizeOf_lt_of_mem hu; omega)
              (hall u hu) hvd hsane.2 he2)
        exact encOk_arrayF hp hgo hbs
    | arrayD hall =>
      rename_i c' vs
      rw [validB_array] at hvd
      have hsane2 : Coder.sane c' = true := by
        rw [sane_array, Bool.and_eq_true] at hsane
        exact hsane.2
      rw [encEq_arrayD] at henc
      cases hlw : writeValue vs.length with
      | error e =>
        rw [hlw] at henc
        simp [bind, Except.bind] at henc
      | ok lw =>
        rw [hlw] at henc
        simp only [bind, Except.bind] at henc
        cases hep : encodeElems c' vs with
        | error e =>
          rw [hep] at henc
          simp [bind, Except.bind] at henc
        | ok parts =>
          rw [hep] at henc
          simp only [bind, Except.bind] at henc
          cases hasm : assemble parts with
          | error e =>
            rw [hasm] at henc
            simp [bind, Except.bind] at henc
          | ok body =>
            rw [hasm] at henc
            simp only [bind, Except.bind, Except.ok.injEq] at henc
            obtain ⟨S, D, hgo, hbody⟩ := assemble_inv hasm
            have hbs : bs = lw ++ (S ++ D) := by rw [← henc, hbody]
            have hszv : sizeOf (Value.arr vs) = 1 + sizeOf vs := by simp
            have hp := partsOk_of_encodeElems c' vs parts hep
              (fun u hu bs2 he2 =>
                ihN u c' bs2
                  (by have := List.sizeOf_lt_of_mem hu; omega)
                  (hall u hu) hvd hsane2 he2)
            exact encOk_arrayDn hp hsane hlw hgo hbs
    | tuple hlen hall =>
      rename_i cs vs
      rw [validB_tuple] at hvd
      rw [sane_tuple] at hsane
      rw [encEq_tuple, if_neg (by simp [hlen])] at henc
      cases hep : encodeParts cs vs with
      | error e =>
        rw [hep] at henc
        simp [bind, Except.bind] at henc
      | ok parts =>
        rw [hep] at henc
        simp only [bind, Except.bind] at henc
        obtain ⟨S, D, hgo, hbs⟩ := assemble_inv henc
        have hszv : sizeOf (Value.tup vs) = 1 + sizeOf vs := by simp
        have hp := partsOk_of_encodeParts cs vs parts hep
          (fun p hp bs2 he2 =>
            ihN p.2 p.1 bs2
              (by have := List.sizeOf_lt_of_mem (List.of_mem_zip hp).2; omega)
              (hall p hp)
              (validListB_mem hvd p.1 (List.of_mem_zip hp).1)
              (saneList_mem hsane p.1 (List.of_mem_zip hp).1)
              he2)
        exact encOk_tuple hp hgo hbs

/-- Round-trip invariant for any successful encode of a well-typed value. -/
theorem encode_encOk {c : Coder} {v : Value} {bs : Bytes}
    (hty : Typed c v) (hvd : Coder.validB c = true) (hsane : Coder.sane c = true)
    (henc : encodeCoder c v = .ok bs) : EncOk c v bs :=
  encOk_of_encode (sizeOf v + 1) v c bs (by omega) hty hvd hsane henc

theorem getCoderList_length : ∀ {ts : List PType} {cs : List Coder},
    getCoderList ts = .ok cs → cs.length = ts.length := by
  intro ts
  induction ts with
  | nil =>
    intro cs h
    rw [getCoderList] at h
    simp only [Except.ok.injEq] at h
    rw [← h]
    rfl
  | cons t ts ih =>
    intro cs h
    rw [getCoderList] at h
    cases hc : getCoder t with
    | error e =>
      rw [hc] at h
      simp [bind, Except.bind] at h
    | ok c =>
      rw [hc] at h
      cases hr : getCoderList ts with
      | error e =>
        rw [hr] at h
        simp [bind, Except.bind] at h
      | ok rest =>
        rw [hr] at h
        simp only [bind, Except.bind, Except.ok.injEq] at h
        rw [← h]
        simp [ih hr]

/-- Every coder `_getCoder` produces passes the bit-width checks embodied in
`validB`. -/
theorem getCoder_validAux (N : Nat) :
    (∀ t c, sizeOf t < N → getCoder t = .ok c → Coder.validB c = true) ∧
    (∀ ts cs, sizeOf ts < N → getCoderList ts = .ok cs → Coder.validListB cs = true) := by
  induction N with
  | zero =>
    constructor
    · intro t c h
      omega
    · intro ts cs h
      omega
  | succ N ihN =>
    constructor
    · intro t c hsz h
      cases t with
      | address =>
        rw [getCoder] at h
        simp only [Except.ok.injEq] at h
        rw [← h, Coder.validB] <;> simp
      | bool =>
        rw [getCoder] at h
        simp only [Except.ok.injEq] at h
        rw [← h, Coder.validB] <;> simp
      | string =>
        rw [getCoder] at h
        simp only [Except.ok.injEq] at h
        rw [← h, Coder.validB] <;> simp
      | bytes =>
        rw [getCoder] at h
        simp only [Except.ok.injEq] at h
        rw [← h, Coder.validB] <;> simp
      | uint bits =>
        rw [getCoder] at h
        by_cases hb : bits = 0 ∨ bits > 256 ∨ bits % 8 ≠ 0
        · rw [if_pos hb] at h
          simp at h
        · rw [if_neg hb] at h
          simp only [Except.ok.injEq] at h
          rw [← h, validB_num]
          push_neg at hb
          simp only [Bool.and_eq_true, decide_eq_true_eq]
          omega
      | int bits =>
        rw [getCoder] at h
        by_cases hb : bits = 0 ∨ bits > 256 ∨ bits % 8 ≠ 0
        · rw [if_pos hb] at h
          simp at h
        · rw [if_neg hb] at h
          simp only [Except.ok.injEq] at h
          rw [← h, validB_num]
          push_neg at hb
          simp only [Bool.and_eq_true, decide_eq_true_eq]
          omega
      | bytesN size =>
        rw [getCoder] at h
        by_cases hb : size = 0 ∨ size > 32
        · rw [if_pos hb] at h
          simp at h
        · rw [if_neg hb] at h
          simp only [Except.ok.injEq] at h
          rw [← h, validB_fixedBytes]
          push_neg at hb
          simp only [Bool.and_eq_true, decide_eq_true_eq]
          omega
      | nullT =>
        rw [getCoder] at h
        simp only [Except.ok.injEq] at h
        rw [← h, Coder.validB] <;> simp
      | array elem len =>
        rw [getCoder] at h
        cases hc : getCoder elem with
        | error e =>
          rw [hc] at h
          simp [bind, Except.bind] at h
        | ok ce =>
          rw [hc] at h
          simp only [bind, Except.bind, Except.ok.injEq] at h
          rw [← h, validB_array]
          refine ihN.1 elem ce ?_ hc
          have : sizeOf (PType.array elem len) = 1 + sizeOf elem + sizeOf len := by simp
          omega
      | tuple comps =>
        rw [getCoder] at h
        cases hc : getCoderList comps with
        | error e =>
          rw [hc] at h
          simp [bind, Except.bind] at h
        | ok cse =>
          rw [hc] at h
          simp only [bind, Except.bind, Except.ok.injEq] at h
          rw [← h, validB_tuple]
          refine ihN.2 comps cse ?_ hc
          have : sizeOf (PType.tuple comps) = 1 + sizeOf comps := by simp
          omega
    · intro ts cs hsz h
      cases ts with
      | nil =>
        rw [getCoderList] at h
        simp only [Except.ok.injEq] at h
        rw [← h, Coder.validListB]
      | cons t ts =>
        rw [getCoderList] at h
        cases hc : getCoder t with
        | error e =>
          rw [hc] at h
          simp [bind, Except.bind] at h
        | ok c =>
          rw [hc] at h
          cases hr : getCoderList ts with
          | error e =>
            rw [hr] at h
            simp [bind, Except.bind] at h
          | ok rest =>
            rw [hr] at h
            simp only [bind, Except.bind, Except.ok.injEq] at h
            rw [← h, validListB_cons, Bool.and_eq_true]
            have hs1 : sizeOf t < N := by
              have : sizeOf (t :: ts) = 1 + sizeOf t + sizeOf ts := by simp
              omega
            have hs2 : sizeOf ts < N := by
              have : sizeOf (t :: ts) = 1 + sizeOf t + sizeOf ts := by simp
              omega
            exact ⟨ihN.1 t c hs1 hc, ihN.2 ts rest hs2 hr⟩

theorem getCoderList_valid {ts : List PType} {cs : List Coder}
    (h : getCoderList ts = .ok cs) : Coder.validListB cs = true :=
  (getCoder_validAux (sizeOf ts + 1)).2 ts cs (by omega) h

/-!
## Claim theorems
-/

theorem abiEncode_encOk {ts : List PType} {cs : List Coder} {vs : List Value}
    {bs : Bytes}
    (hcs : getCoderList ts = .ok cs)
    (hsane : Coder.saneList cs = true)
    (hty : ∀ p ∈ cs.zip vs, Typed p.1 p.2)
    (henc : abiEncode ts vs = .ok bs) :
    EncOk (.tuple cs) (.tup vs) bs := by
  rw [abiEncode] at henc
  by_cases hl : ts.length ≠ vs.length
  · rw [if_pos hl] at henc
    simp at henc
  · rw [if_neg hl] at henc
    push_neg at hl
    rw [hcs] at henc
    simp only [bind, Except.bind] at henc
    have hlen2 : cs.length = vs.length := by
      rw [getCoderList_length hcs]
      exact hl
    exact encode_encOk (Typed.tuple hlen2 hty)
      (by rw [validB_tuple]; exact getCoderList_valid hcs)
      (by rw [sane_tuple]; exact hsane) henc

theorem abiRoundtrip {ts : List PType} {cs : List Coder} {vs : List Value} {bs : Bytes}
    (hcs : getCoderList ts = .ok cs)
    (hsane : Coder.saneList cs = true)
    (hty : ∀ p ∈ cs.zip vs, Typed p.1 p.2)
    (henc : abiEncode ts vs = .ok bs)
    (hlen : bs.length < 2 ^ 53) :
    abiDecode ts bs false = .ok (vs.map toD) := by
  obtain ⟨hmod, hab, hnn, hdy, hst⟩ := abiEncode_encOk hcs hsane hty henc
  rw [abiDecode, hcs]
  simp only [bind, Except.bind]
  rw [abiDecodeCoders]
  by_cases hd : Coder.dynamic (.tuple cs) = true
  · obtain ⟨r', hr'⟩ := dynDec_cases false (hdy hd hlen) (show bs = bs ++ [] by simp)
    simp only [hr', toD_tup]
  · rw [Bool.not_eq_true] at hd
    obtain ⟨hsz, hsd⟩ := hst hd
    have e := hsd [] [] false
    simp only [List.nil_append, List.append_nil, List.length_nil, Nat.zero_add] at e
    simp only [e, toD_tup]

/-- **C1** (amended).  ABI encode/decode round-trips positionally: for every
type list whose coders are sane (no empty-type `NullCoder` member anywhere —
its decoded `null` is dropped by `unpack` — and no dynamic-length array of
zero-sized static elements, which the `count * 32` sanity check rejects) and
every aligned list of in-range values, a successful
`AbiCoder.encode(types, vs)` decodes back to exactly the values, in
position, provided the encoding stays below the `2^53` bound that the
`toNumber` offset reads impose. -/
theorem claim1_roundtrip {ts : List PType} {cs : List Coder} {vs : List Value}
    {bs : Bytes}
    (hcs : getCoderList ts = .ok cs)
    (hsane : Coder.saneList cs = true)
    (hty : ∀ p ∈ cs.zip vs, Typed p.1 p.2)
    (henc : abiEncode ts vs = .ok bs)
    (hlen : bs.length < 2 ^ 53) :
    abiDecode ts bs false = .ok (vs.map toD) :=
  abiRoundtrip hcs hsane hty henc hlen

/-- **C2**.  For every width `N = 8 * size` in `{8, 16, ..., 256}`, the
signed `NumberCoder` for `intN` rejects `2^(N-1)` with the
`value out-of-bounds` argument error, while `2^(N-1) - 1` encodes
successfully and its encoding decodes back to `2^(N-1) - 1`. -/
theorem claim2_intN_bounds (size : Nat) (h1 : 1 ≤ size) (h2 : size ≤ 32) :
    encodeCoder (.num size true) (.int (2 ^ (size * 8 - 1))) =
      .error (.invalidArgument "value out-of-bounds") ∧
    ∃ bs, encodeCoder (.num size true) (.int (2 ^ (size * 8 - 1) - 1)) = .ok bs ∧
      ∀ rest al,
        decodeCoder (.num size true) { data := bs ++ rest, off := 0, allowLoose := al } =
          .ok (.int (2 ^ (size * 8 - 1) - 1))
            { data := bs ++ rest, off := bs.length, allowLoose := al } := by
  have hmax : maskI (32 * 8) ((2 : Int) ^ 256 - 1) = 2 ^ 256 - 1 := by
    rw [maskI]
    exact Int.emod_eq_of_lt (by positivity) (by norm_num)
  have hPpos : (0 : Int) < 2 ^ (size * 8 - 1) := by positivity
  have hdouble := pow_succ (2 : Int) (size * 8 - 1)
  have hexp : size * 8 - 1 + 1 = size * 8 := by omega
  rw [hexp] at hdouble
  have hle : (2 : Int) ^ (size * 8 - 1) ≤ 2 ^ 256 :=
    pow_le_pow_right₀ (by norm_num) (by omega)
  constructor
  · rw [encEq_num]
    simp only
    rw [hmax, if_pos trivial, mask_maxUint (size * 8 - 1) (by omega)]
    rw [if_pos (Or.inl (by omega))]
  · have e1 : toTwosI (size * 8) ((2 : Int) ^ (size * 8 - 1) - 1) =
        2 ^ (size * 8 - 1) - 1 := by
      rw [toTwosI, if_neg (by omega)]
    have e2 : maskI (size * 8) ((2 : Int) ^ (size * 8 - 1) - 1) =
        2 ^ (size * 8 - 1) - 1 := by
      rw [maskI]
      exact Int.emod_eq_of_lt (by omega) (by omega)
    have e3 : fromTwosI (size * 8) ((2 : Int) ^ (size * 8 - 1) - 1) =
        2 ^ (size * 8 - 1) - 1 := by
      rw [fromTwosI, if_neg (by omega)]
    have e4 : toTwosI (8 * 32) ((2 : Int) ^ (size * 8 - 1) - 1) =
        2 ^ (size * 8 - 1) - 1 := by
      rw [toTwosI, if_neg (by omega)]
    have henc : encodeCoder (.num size true) (.int ((2 : Int) ^ (size * 8 - 1) - 1)) =
        .ok (word32 (((2 : Int) ^ (size * 8 - 1) - 1).toNat)) := by
      rw [encEq_num]
      simp only
      rw [hmax, if_pos trivial, mask_maxUint (size * 8 - 1) (by omega)]
      rw [if_neg (by omega)]
      rw [e1, e2, e3, e4]
      exact writeValue_ok _ (by omega)
    refine ⟨word32 (((2 : Int) ^ (size * 8 - 1) - 1).toNat), henc, ?_⟩
    intro rest al
    have hok := encOk_num
      (Typed.numSigned (by omega) (le_refl _))
      (by rw [validB_num]; simp only [Bool.and_eq_true, decide_eq_true_eq]; omega)
      henc
    obtain ⟨-, -, -, -, hst⟩ := hok
    obtain ⟨hsz, hsd⟩ := hst (by rw [dynamic_num])
    have e := hsd [] rest al
    simp only [List.nil_append, List.length_nil, Nat.zero_add, toD_int] at e
    exact e

/-- **C6** (amended).  When a dynamic array's claimed element count (already
through `toNumber`, hence below `2^53`) times 32 exceeds the byte length of
the reader's whole backing buffer, `ArrayCoder.decode` fails with the
`insufficient data length` buffer overrun before touching any element. -/
theorem claim6_array_sanity (c : Coder) (count : Nat) (pre rest : Bytes) (al : Bool)
    (hcnt : count < 2 ^ 53)
    (hover : count * 32 > (pre ++ (word32 count ++ rest)).length) :
    decodeCoder (.array c none)
        { data := pre ++ (word32 count ++ rest), off := pre.length, allowLoose := al } =
      .err (.bufferOverrun "insufficient data length")
        { data := pre ++ (word32 count ++ rest), off := pre.length + 32, allowLoose := al } := by
  rw [decodeCoder]
  rw [readValue_at pre _ rest al pre.length rfl (word32_length _)]
  have hc256 : count < 2 ^ 256 := by omega
  simp only [bytesToNat_word32 count hc256, toNumber_ok count hcnt, if_pos hover]

/-- **C10**.  `BooleanCoder.decode` never fails on a word it can read: it
returns `false` exactly for the all-zero word and `true` for every nonzero
word, canonical or not. -/
theorem claim10_bool_decode {w : Bytes} (hw : w.length = 32) (pre rest : Bytes) (al : Bool) :
    decodeCoder .bool { data := pre ++ (w ++ rest), off := pre.length, allowLoose := al } =
      .ok (.bool (bytesToNat w != 0))
        { data := pre ++ (w ++ rest), off := pre.length + 32, allowLoose := al } := by
  rw [decodeCoder, readValue_at pre w rest al pre.length rfl hw]

/-- **C5** (amended).  A per-field decode failure raised inside the coder's
`decode` call that is not a buffer overrun is captured and deferred: the
tuple decode still succeeds, the failed slot holds the captured error, the
other slots hold their decoded values, and only reading the failed slot
raises the error.  A buffer overrun inside a field is re-thrown and aborts
the whole decode.  (The offset word's `toNumber` conversion sits outside
the `try`, so its numeric fault also aborts — see the counterexample.) -/
theorem claim5_deferred_capture (a b : Nat) (ha1 : 2 ^ 160 ≤ a) (ha2 : a < 2 ^ 256)
    (hb : b < 2 ^ 256) (al : Bool) :
    abiDecodeCoders [.address, .bool] (word32 a ++ word32 b) al =
      .ok [.err (.invalidArgument "value out of range"), .bool (b != 0)] ∧
    resAccess [.err (.invalidArgument "value out of range"), .bool (b != 0)] 0 =
      some (.error (.invalidArgument "value out of range")) ∧
    resAccess [.err (.invalidArgument "value out of range"), .bool (b != 0)] 1 =
      some (.ok (.bool (b != 0))) ∧
    abiDecodeCoders [.string] (word32 64) false =
      .error (.bufferOverrun "data out-of-bounds") := by
  refine ⟨?_, rfl, rfl, ?_⟩
  · have e0 := subReader_mid al
      ((List.nil_append (word32 a ++ word32 b)).symm)
      (rfl : (0 : Nat) = ([] : Bytes).length)
    have e1 := readValue_atEq al
      ((List.nil_append (word32 a ++ word32 b)).symm)
      (rfl : (0 : Nat) = ([] : Bytes).length)
      (word32_length a)
    have eAddrDec : decodeCoder .address
        { data := word32 a ++ word32 b, off := 0, allowLoose := al } =
        .err (.invalidArgument "value out of range")
          { data := word32 a ++ word32 b, off := 32, allowLoose := al } := by
      rw [decodeCoder]
      simp only [e1, bytesToNat_word32 a ha2, Nat.zero_add]
      rw [if_neg (by omega)]
    have eAddrF : decodeField .address
        { data := word32 a ++ word32 b, off := 0, allowLoose := al }
        { data := word32 a ++ word32 b, off := 0, allowLoose := al } =
        .ok (.err (.invalidArgument "value out of range"))
          { data := word32 a ++ word32 b, off := 32, allowLoose := al } := by
      rw [decodeField, if_neg (by simp)]
      simp only [eAddrDec]
    have e2 := readValue_atEq al
      (show (word32 a ++ word32 b : Bytes) = word32 a ++ (word32 b ++ []) by
        rw [List.append_nil])
      ((word32_length a).symm)
      (word32_length b)
    have eBoolDec : decodeCoder .bool
        { data := word32 a ++ word32 b, off := 32, allowLoose := al } =
        .ok (.bool (b != 0))
          { data := word32 a ++ word32 b, off := 32 + 32, allowLoose := al } := by
      rw [decodeCoder]
      simp only [e2, bytesToNat_word32 b hb]
    have eBoolF : decodeField .bool
        { data := word32 a ++ word32 b, off := 0, allowLoose := al }
        { data := word32 a ++ word32 b, off := 32, allowLoose := al } =
        .ok (.bool (b != 0))
          { data := word32 a ++ word32 b, off := 32 + 32, allowLoose := al } := by
      rw [decodeField, if_neg (by simp)]
      simp only [eBoolDec]
    rw [abiDecodeCoders, decodeCoder]
    simp only [e0]
    rw [unpackList]
    simp only [eAddrF]
    rw [unpackList]
    simp only [eBoolF]
    rw [unpackList]
    simp only [pushValue_ne (show DVal.bool (b != 0) ≠ .nullV by simp) [],
      pushValue_ne
        (show DVal.err (.invalidArgument "value out of range") ≠ .nullV by simp)
        [DVal.bool (b != 0)]]
  · have e0 := subReader_mid false
      ((List.nil_append (word32 64)).symm)
      (rfl : (0 : Nat) = ([] : Bytes).length)
    have e1 := readValue_atEq false
      (show (word32 64 : Bytes) = [] ++ (word32 64 ++ []) by
        rw [List.nil_append, List.append_nil])
      (rfl : (0 : Nat) = ([] : Bytes).length)
      (word32_length 64)
    have e3 : Reader.subReader { data := word32 64, off := 0, allowLoose := false } 64 =
        { data := [], off := 0, allowLoose := false } := by
      rw [Reader.subReader]
      simp only [Nat.zero_add,
        List.drop_eq_nil_of_le (show (word32 64).length ≤ 64 by rw [word32_length]; omega)]
    have e4 : decodeCoder .string { data := ([] : Bytes), off := 0, allowLoose := false } =
        .err (.bufferOverrun "data out-of-bounds")
          { data := ([] : Bytes), off := 0, allowLoose := false } := by
      rw [decodeCoder]
      have hr : Reader.readValue { data := ([] : Bytes), off := 0, allowLoose := false } =
          .error (.bufferOverrun "data out-of-bounds") := by rfl
      simp only [hr]
    rw [abiDecodeCoders, decodeCoder]
    simp only [e0]
    rw [unpackList, decodeField, if_pos dynamic_string]
    simp only [e1, bytesToNat_word32 64 (by norm_num), toNumber_ok 64 (by norm_num),
      Nat.zero_add, e3, e4]

/-- **C7** (amended).  Only `BigNumber.mod` guards against a negative
operand: `x.mod(y)` with `y < 0` faults with
`cannot modulo negative values`, but `x.div(y)` with `y < 0` checks only
for zero and returns the truncated quotient instead of faulting. -/
theorem claim7_negative_divmod (x y : Int) (hy : y < 0) :
    bnMod x y = .error (.numericFault "mod" "cannot modulo negative values") ∧
    bnDiv x y = .ok (Int.tdiv x y) := by
  refine ⟨by rw [bnMod, if_pos hy], by rw [bnDiv, if_neg (by omega)]⟩

/-!
## `getAddress` facts
-/

theorem toLowerC_lo {c : Nat} (h : isHexDigitC c = true) :
    (isDigitC (toLowerC c) || isLoHexC (toLowerC c)) = true := by
  simp only [isHexDigitC, isDigitC, isLoHexC, isUpHexC, toLowerC, Bool.or_eq_true,
    decide_eq_true_eq] at *
  split_ifs <;> omega

theorem toLowerC_fix {c : Nat} (h : (isDigitC c || isLoHexC c) = true) :
    toLowerC c = c := by
  simp only [isDigitC, isLoHexC, Bool.or_eq_true, decide_eq_true_eq] at h
  rw [toLowerC, if_neg (by omega)]

theorem hexNibbleUp_lower {hs : List Nat} {i c : Nat}
    (h : (isDigitC c || isLoHexC c) = true) :
    toLowerC (hexNibbleUp hs i c) = c := by
  simp only [isDigitC, isLoHexC, Bool.or_eq_true, decide_eq_true_eq] at h
  simp only [hexNibbleUp, toUpperC, toLowerC]
  split_ifs <;> omega

theorem hexNibbleUp_hex {hs : List Nat} {i c : Nat}
    (h : (isDigitC c || isLoHexC c) = true) :
    isHexDigitC (hexNibbleUp hs i c) = true := by
  simp only [isDigitC, isLoHexC, Bool.or_eq_true, decide_eq_true_eq] at h
  simp only [hexNibbleUp, toUpperC, isHexDigitC, isDigitC, isLoHexC, isUpHexC,
    Bool.or_eq_true, decide_eq_true_eq]
  split_ifs <;> omega

theorem applyCase_length (hs : List Nat) : ∀ (i : Nat) (s : Str),
    (applyCase hs i s).length = s.length := by
  intro i s
  induction s generalizing i with
  | nil => rfl
  | cons c rest ih =>
    rw [applyCase, List.length_cons, List.length_cons, ih]

theorem applyCase_lower (hs : List Nat) : ∀ (i : Nat) (s : Str),
    (∀ c ∈ s, (isDigitC c || isLoHexC c) = true) →
    (applyCase hs i s).map toLowerC = s := by
  intro i s
  induction s generalizing i with
  | nil => intro _; rfl
  | cons c rest ih =>
    intro hall
    rw [applyCase, List.map_cons,
      hexNibbleUp_lower (hall c (List.mem_cons_self c rest)),
      ih (i + 1) (fun x hx => hall x (List.mem_cons_of_mem c hx))]

theorem applyCase_hex (hs : List Nat) : ∀ (i : Nat) (s : Str),
    (∀ c ∈ s, (isDigitC c || isLoHexC c) = true) →
    (applyCase hs i s).all isHexDigitC = true := by
  intro i s
  induction s generalizing i with
  | nil => intro _; rfl
  | cons c rest ih =>
    intro hall
    rw [applyCase, List.all_cons,
      hexNibbleUp_hex (hall c (List.mem_cons_self c rest)),
      ih (i + 1) (fun x hx => hall x (List.mem_cons_of_mem c hx))]
    rfl

theorem isHexString20_spec {s : Str} (h : isHexString20 s = true) :
    s.take 2 = [48, 120] ∧ s.length = 42 ∧ (s.drop 2).all isHexDigitC = true := by
  rw [isHexString20, Bool.and_eq_true, Bool.and_eq_true] at h
  exact ⟨of_decide_eq_true h.1.1, of_decide_eq_true h.1.2, h.2⟩

theorem matchHex40_of_isHex20 {s : Str} (h : isHexString20 s = true) :
    matchHex40 s = true := by
  obtain ⟨h1, h2, h3⟩ := isHexString20_spec h
  rw [matchHex40, Bool.or_eq_true]
  right
  rw [Bool.and_eq_true, Bool.and_eq_true]
  exact ⟨⟨decide_eq_true h1, decide_eq_true h2⟩, h3⟩

/-- The checksummed form is a fixed point of `getChecksumAddress`: it is
itself a `0x`-prefixed 40-digit hex string whose lower-cased body is the
hash input again, so re-checksumming reproduces it. -/
theorem getChecksumAddress_fix {hash : List Nat → List Nat} {a r : Str}
    (h : getChecksumAddress hash a = .ok r) :
    isHexString20 r = true ∧ getChecksumAddress hash r = .ok r := by
  rw [getChecksumAddress] at h
  by_cases ha : isHexString20 a = true
  · rw [if_pos ha] at h
    simp only [Except.ok.injEq] at h
    obtain ⟨-, -, h3⟩ := isHexString20_spec ha
    have hmapdrop : (a.map toLowerC).drop 2 = (a.drop 2).map toLowerC := by
      rw [List.map_drop]
    have hlo : ∀ c ∈ (a.map toLowerC).drop 2, (isDigitC c || isLoHexC c) = true := by
      rw [hmapdrop]
      intro c hc
      obtain ⟨c0, hc0, hc0e⟩ := List.mem_map.mp hc
      rw [← hc0e]
      exact toLowerC_lo (by rw [List.all_eq_true] at h3; exact h3 c0 hc0)
    have hlen : ((a.map toLowerC).drop 2).length = 40 := by
      rw [List.length_drop, List.length_map]
      obtain ⟨-, h2, -⟩ := isHexString20_spec ha
      omega
    have hrhex : isHexString20 r = true := by
      rw [← h, isHexString20]
      rw [Bool.and_eq_true, Bool.and_eq_true]
      refine ⟨⟨decide_eq_true rfl, decide_eq_true ?_⟩, ?_⟩
      · simp only [List.length_cons, applyCase_length]
        omega
      · simp only [List.drop_succ_cons, List.drop_zero]
        exact applyCase_hex _ 0 _ hlo
    refine ⟨hrhex, ?_⟩
    rw [getChecksumAddress, if_pos hrhex]
    have hbody : (r.map toLowerC).drop 2 = (a.map toLowerC).drop 2 := by
      rw [← h]
      simp only [List.map_cons, List.drop_succ_cons, List.drop_zero]
      exact applyCase_lower _ 0 _ hlo
    rw [hbody, ← h]
  · rw [if_neg ha] at h
    simp at h

/-- `getAddress` with its `let`s expanded, for rewriting. -/
theorem getAddressEq (hash : List Nat → List Nat) (address : Str) :
    getAddress hash address =
    (if matchHex40 address then
      match getChecksumAddress hash
          (if address.take 2 = [48, 120] then address else 48 :: 120 :: address) with
      | .error e => .error e
      | .ok result =>
        if mixedCase (if address.take 2 = [48, 120] then address
              else 48 :: 120 :: address) &&
            decide (result ≠ (if address.take 2 = [48, 120] then address
              else 48 :: 120 :: address)) then
          .error (.invalidArgument "bad address checksum")
        else .ok result
    else if matchICAP address then
      if (address.drop 2).take 2 ≠ ibanChecksum address then
        .error (.invalidArgument "bad icap checksum")
      else
        getChecksumAddress hash (48 :: 120 ::
          (List.replicate (40 - (natToHex (base36ToNat (address.drop 4))).length) 48 ++
            natToHex (base36ToNat (address.drop 4))))
    else .error (.invalidArgument "invalid address")) := by
  rw [getAddress]

/-- **C3**.  For an arbitrary `keccak256` (the external `js-sha3` import,
modeled as the parameter `hash`): `getAddress` is idempotent — any address
it accepts comes out of `getChecksumAddress`, whose output is a fixed point
of the whole function — and a 40-digit hex address whose mixed-case
capitalization differs from the checksummed form is rejected with the
`bad address checksum` argument error. -/
theorem claim3_getAddress (hash : List Nat → List Nat) :
    (∀ a r, getAddress hash a = .ok r → getAddress hash r = .ok r) ∧
    (∀ a r, matchHex40 a = true →
      mixedCase (if a.take 2 = [48, 120] then a else 48 :: 120 :: a) = true →
      getChecksumAddress hash (if a.take 2 = [48, 120] then a else 48 :: 120 :: a) =
        .ok r →
      r ≠ (if a.take 2 = [48, 120] then a else 48 :: 120 :: a) →
      getAddress hash a = .error (.invalidArgument "bad address checksum")) := by
  constructor
  · intro a r h
    have hfix : isHexString20 r = true ∧ getChecksumAddress hash r = .ok r := by
      rw [getAddressEq] at h
      by_cases h1 : matchHex40 a = true
      · rw [if_pos h1] at h
        cases hc : getChecksumAddress hash
            (if a.take 2 = [48, 120] then a else 48 :: 120 :: a) with
        | error e =>
          rw [hc] at h
          simp at h
        | ok result =>
          rw [hc] at h
          dsimp only at h
          by_cases h2 : (mixedCase (if a.take 2 = [48, 120] then a else 48 :: 120 :: a) &&
              decide (result ≠ (if a.take 2 = [48, 120] then a else 48 :: 120 :: a))) = true
          · rw [if_pos h2] at h
            simp at h
          · rw [if_neg h2] at h
            simp only [Except.ok.injEq] at h
            subst h
            exact getChecksumAddress_fix hc
      · rw [if_neg h1] at h
        by_cases h2 : matchICAP a = true
        · rw [if_pos h2] at h
          by_cases h3 : (a.drop 2).take 2 ≠ ibanChecksum a
          · rw [if_pos h3] at h
            simp at h
          · rw [if_neg h3] at h
            exact getChecksumAddress_fix h
        · rw [if_neg h2] at h
          simp at h
    obtain ⟨hr20, hrchk⟩ := hfix
    obtain ⟨hrtake, -, -⟩ := isHexString20_spec hr20
    rw [getAddressEq, if_pos (matchHex40_of_isHex20 hr20), if_pos hrtake, hrchk]
    simp
  · intro a r h1 h2 h3 h4
    rw [getAddressEq, if_pos h1, h3]
    have hcond : (mixedCase (if a.take 2 = [48, 120] then a else 48 :: 120 :: a) &&
        decide (r ≠ (if a.take 2 = [48, 120] then a else 48 :: 120 :: a))) = true := by
      rw [h2, decide_eq_true h4]
      rfl
    dsimp only
    rw [if_pos hcond]

/-- **C4**.  The `decodeFunctionResult` computation (see
`decodeFunctionResultAlg`: the method body with the coder bound as the
instance method binds it): a word-aligned payload decodes against the
outputs, so `outputs = [uint256]` on the word for `n` yields `n`; a payload
of length `4 mod 32` starting with the `Error(string)` selector `0x08c379a0`
followed by an ABI-encoded string raises the call exception carrying that
string as its `reason`. -/
theorem claim4_decodeFunctionResult :
    (∀ n : Nat, n < 2 ^ 256 →
      decodeFunctionResultAlg [.uint 256] (word32 n) = .ok (.res [.int n])) ∧
    (∀ (s : List Nat) (bs : Bytes) (outputs : List PType),
      (∀ c ∈ s, c < 0x110000 ∧ ¬(0xd800 ≤ c ∧ c ≤ 0xdfff)) →
      abiEncode [.string] [.str s] = .ok bs →
      bs.length < 2 ^ 53 →
      decodeFunctionResultAlg outputs (errorSelector ++ bs) =
        .ok (.callException (some "Error") (some "Error(string)") (some (.str s)))) := by
  have hgcU : getCoderList [PType.uint 256] = .ok [Coder.num 32 false] := by
    rw [getCoderList, getCoder, if_neg (by norm_num)]
    rw [getCoderList]
    rfl
  have hgcS : getCoderList [PType.string] = .ok [Coder.string] := by
    rw [getCoderList, getCoder]
    rw [getCoderList]
    rfl
  constructor
  · intro n hn
    have e0 := subReader_mid false
      ((List.nil_append (word32 n)).symm)
      (rfl : (0 : Nat) = ([] : Bytes).length)
    have e1 := readValue_atEq false
      (show (word32 n : Bytes) = [] ++ (word32 n ++ []) by
        rw [List.nil_append, List.append_nil])
      (rfl : (0 : Nat) = ([] : Bytes).length)
      (word32_length n)
    have hmask : ((n : Int) % 2 ^ (32 * 8)) = (n : Int) := by
      refine Int.emod_eq_of_lt (by positivity) ?_
      have : (n : Int) < 2 ^ 256 := by exact_mod_cast hn
      norm_num at this ⊢
      omega
    have eNum : decodeCoder (.num 32 false)
        { data := word32 n, off := 0, allowLoose := false } =
        .ok (.int n) { data := word32 n, off := 32, allowLoose := false } := by
      rw [decodeCoder]
      simp only [e1, bytesToNat_word32 n hn, Nat.zero_add, hmask,
        Bool.false_eq_true, if_false]
    have eF : decodeField (.num 32 false)
        { data := word32 n, off := 0, allowLoose := false }
        { data := word32 n, off := 0, allowLoose := false } =
        .ok (.int n) { data := word32 n, off := 32, allowLoose := false } := by
      rw [decodeField, if_neg (by simp)]
      simp only [eNum]
    rw [decodeFunctionResultAlg, if_pos (by rw [word32_length])]
    rw [abiDecode, hgcU]
    simp only [bind, Except.bind]
    rw [abiDecodeCoders, decodeCoder]
    simp only [e0]
    rw [unpackList]
    simp only [eF]
    rw [unpackList]
    simp only [pushValue_ne (show DVal.int n ≠ .nullV by simp) []]
  · intro s bs outputs hval henc hlen
    have hsane : Coder.saneList [Coder.string] = true := by simp
    have hty : ∀ p ∈ ([Coder.string].zip [Value.str s]), Typed p.1 p.2 := by
      intro p hp
      have hp2 : p = (Coder.string, Value.str s) := by simpa using hp
      rw [hp2]
      exact Typed.str hval
    have hmod : bs.length % 32 = 0 := (abiEncode_encOk hgcS hsane hty henc).1
    have hdec := abiRoundtrip hgcS hsane hty henc hlen
    simp only [List.map_cons, List.map_nil, toD_str] at hdec
    have hlenE : (errorSelector ++ bs).length = 4 + bs.length := by
      rw [List.length_append, errorSelector]
      rfl
    have htake : (errorSelector ++ bs).take 4 = errorSelector := by
      rw [errorSelector]
      rfl
    have hdrop : (errorSelector ++ bs).drop 4 = bs := by
      rw [errorSelector]
      rfl
    rw [decodeFunctionResultAlg,
      if_neg (by rw [hlenE]; omega),
      if_pos (by rw [hlenE]; omega),
      if_pos htake, hdrop]
    simp only [hdec]
    rfl

theorem evAssembleGo_marker :
    ∀ (ps : List EvParam) (ri : Option (List DVal)) (rn : List DVal) (ii ni : Nat)
      (res : List EvSlot),
      evAssembleGo ri rn ps ii ni = .ok res →
      ∀ (i : Nat) (p : EvParam), ps.get? i = some p →
        p.indexed = true → evDynamic p.ptype = true →
        ∃ hv, res.get? i = some (.indexedMarker hv) := by
  intro ps
  induction ps with
  | nil =>
    intro ri rn ii ni res h i p hget
    simp at hget
  | cons p0 rest ih =>
    intro ri rn ii ni res h i p hget hpi hpd
    rw [evAssembleGo.eq_def] at h
    dsimp only at h
    cases i with
    | zero =>
      simp only [List.get?_cons_zero, Option.some.injEq] at hget
      subst hget
      rw [if_pos hpi] at h
      cases ri with
      | none =>
        dsimp only at h
        cases hrec : evAssembleGo none rn rest ii ni with
        | error e =>
          rw [hrec] at h
          simp at h
        | ok tail =>
          rw [hrec] at h
          simp only [Except.ok.injEq] at h
          rw [← h]
          exact ⟨none, rfl⟩
      | some vals =>
        dsimp only at h
        rw [if_pos hpd] at h
        cases hra : resAccess vals ii with
        | none =>
          rw [hra] at h
          cases hrec : evAssembleGo (some vals) rn rest (ii + 1) ni with
          | error e =>
            rw [hrec] at h
            simp at h
          | ok tail =>
            rw [hrec] at h
            simp only [Except.ok.injEq] at h
            rw [← h]
            exact ⟨none, rfl⟩
        | some x =>
          cases x with
          | error e =>
            rw [hra] at h
            simp at h
          | ok v =>
            rw [hra] at h
            cases hrec : evAssembleGo (some vals) rn rest (ii + 1) ni with
            | error e =>
              rw [hrec] at h
              simp at h
            | ok tail =>
              rw [hrec] at h
              simp only [Except.ok.injEq] at h
              rw [← h]
              exact ⟨some v, rfl⟩
    | succ i =>
      simp only [List.get?_cons_succ] at hget
      by_cases hq : p0.indexed = true
      · rw [if_pos hq] at h
        cases ri with
        | none =>
          dsimp only at h
          cases hrec : evAssembleGo none rn rest ii ni with
          | error e =>
            rw [hrec] at h
            simp at h
          | ok tail =>
            rw [hrec] at h
            simp only [Except.ok.injEq] at h
            rw [← h]
            simpa using ih none rn ii ni tail hrec i p hget hpi hpd
        | some vals =>
          dsimp only at h
          by_cases hd0 : evDynamic p0.ptype = true
          · rw [if_pos hd0] at h
            cases hra : resAccess vals ii with
            | none =>
              rw [hra] at h
              cases hrec : evAssembleGo (some vals) rn rest (ii + 1) ni with
              | error e =>
                rw [hrec] at h
                simp at h
              | ok tail =>
                rw [hrec] at h
                simp only [Except.ok.injEq] at h
                rw [← h]
                simpa using ih (some vals) rn (ii + 1) ni tail hrec i p hget hpi hpd
            | some x =>
              cases x with
              | error e =>
                rw [hra] at h
                simp at h
              | ok v =>
                rw [hra] at h
                cases hrec : evAssembleGo (some vals) rn rest (ii + 1) ni with
                | error e =>
                  rw [hrec] at h
                  simp at h
                | ok tail =>
                  rw [hrec] at h
                  simp only [Except.ok.injEq] at h
                  rw [← h]
                  simpa using ih (some vals) rn (ii + 1) ni tail hrec i p hget hpi hpd
          · rw [if_neg hd0] at h
            cases hrec : evAssembleGo (some vals) rn rest (ii + 1) ni with
            | error e =>
              rw [hrec] at h
              simp at h
            | ok tail =>
              rw [hrec] at h
              simp only [Except.ok.injEq] at h
              rw [← h]
              simpa using ih (some vals) rn (ii + 1) ni tail hrec i p hget hpi hpd
      · rw [if_neg hq] at h
        cases hrec : evAssembleGo ri rn rest ii (ni + 1) with
        | error e =>
          rw [hrec] at h
          simp at h
        | ok tail =>
          rw [hrec] at h
          simp only [Except.ok.injEq] at h
          rw [← h]
          simpa using ih ri rn ii (ni + 1) tail hrec i p hget hpi hpd

/-- **C8**.  In any successful `decodeEventLog`, every indexed input of
dynamic type (`string`, `bytes`, `tuple` or `array` base type) comes back as
an opaque `Indexed` marker, never as a decoded value of that type; and for a
fragment with one dynamic indexed parameter, the marker carries exactly the
32-byte hash word taken from the topic. -/
theorem claim8_indexed_dynamic :
    (∀ (anonymous : Bool) (topicHash : Bytes) (inputs : List EvParam)
        (data : Bytes) (topics : Option (List Bytes)) (result : List EvSlot)
        (i : Nat) (p : EvParam),
      decodeEventLog anonymous topicHash inputs data topics = .ok result →
      inputs.get? i = some p → p.indexed = true → evDynamic p.ptype = true →
      ∃ hv, result.get? i = some (.indexedMarker hv)) ∧
    (∀ (t : PType) (h topicHash : Bytes),
      evDynamic t = true → h.length = 32 →
      decodeEventLog false topicHash [⟨true, t⟩] [] (some [topicHash, h]) =
        .ok [.indexedMarker (some (.bytes h))]) := by
  constructor
  · intro anonymous topicHash inputs data topics result i p h hget hpi hpd
    rw [decodeEventLog.eq_def] at h
    have hmain : ∀ (ri : Option (List DVal)) (rn : List DVal),
        evAssembleGo ri rn inputs 0 0 = .ok result →
        ∃ hv, result.get? i = some (.indexedMarker hv) :=
      fun ri rn hgo => evAssembleGo_marker inputs ri rn 0 0 result hgo i p hget hpi hpd
    cases topics with
    | none =>
      dsimp only at h
      cases habi : abiDecode (evNonIndexedTypes inputs) data true with
      | error e =>
        rw [habi] at h
        simp at h
      | ok rn =>
        rw [habi] at h
        exact hmain none rn h
    | some ts =>
      cases anonymous with
      | true =>
        dsimp only at h
        rw [if_neg (show ¬(true = false) by simp)] at h
        dsimp only at h
        cases habi2 : abiDecode (evIndexedTypes inputs) ts.flatten false with
        | error e =>
          rw [habi2] at h
          simp [Except.map] at h
        | ok riv =>
          rw [habi2] at h
          dsimp only [Except.map] at h
          cases habi : abiDecode (evNonIndexedTypes inputs) data true with
          | error e =>
            rw [habi] at h
            simp at h
          | ok rn =>
            rw [habi] at h
            exact hmain (some riv) rn h
      | false =>
        dsimp only at h
        rw [if_pos rfl] at h
        cases ts with
        | nil =>
          simp at h
        | cons t0 ts2 =>
          simp only [List.head?_cons, List.tail_cons] at h
          by_cases ht0 : t0 = topicHash
          · rw [if_pos ht0] at h
            dsimp only at h
            cases habi2 : abiDecode (evIndexedTypes inputs) ts2.flatten false with
            | error e =>
              rw [habi2] at h
              simp [Except.map] at h
            | ok riv =>
              rw [habi2] at h
              dsimp only [Except.map] at h
              cases habi : abiDecode (evNonIndexedTypes inputs) data true with
              | error e =>
                rw [habi] at h
                simp at h
              | ok rn =>
                rw [habi] at h
                exact hmain (some riv) rn h
          · rw [if_neg ht0] at h
            simp at h
  · intro t h topicHash hdyn hlen32
    have hgcB : getCoderList [PType.bytesN 32] = .ok [Coder.fixedBytes 32] := by
      rw [getCoderList, getCoder, if_neg (by norm_num)]
      rw [getCoderList]
      rfl
    have hrb := readBytes_at [] h [] false false 32 0 rfl (by rw [hlen32]; rfl)
    rw [List.nil_append, List.append_nil] at hrb
    have htk : h.take 32 = h := by
      rw [← hlen32]
      exact List.take_length h
    have eFB : decodeCoder (.fixedBytes 32) { data := h, off := 0, allowLoose := false } =
        .ok (.bytes h) { data := h, off := 32, allowLoose := false } := by
      rw [decodeCoder]
      simp only [hrb, htk, Nat.zero_add, hlen32]
    have eF : decodeField (.fixedBytes 32)
        { data := h, off := 0, allowLoose := false }
        { data := h, off := 0, allowLoose := false } =
        .ok (.bytes h) { data := h, off := 32, allowLoose := false } := by
      rw [decodeField, if_neg (by simp)]
      simp only [eFB]
    have e0 := subReader_mid false
      ((List.nil_append h).symm)
      (rfl : (0 : Nat) = ([] : Bytes).length)
    have habiB : abiDecode [PType.bytesN 32] h false = .ok [.bytes h] := by
      rw [abiDecode, hgcB]
      simp only [bind, Except.bind]
      rw [abiDecodeCoders, decodeCoder]
      simp only [e0]
      rw [unpackList]
      simp only [eF]
      rw [unpackList]
      simp only [pushValue_ne (show DVal.bytes h ≠ .nullV by simp) []]
    have hgcN : getCoderList [] = .ok [] := by
      rw [getCoderList]
    have e0N := subReader_mid false
      ((List.nil_append ([] : Bytes)).symm)
      (rfl : (0 : Nat) = ([] : Bytes).length)
    have habiN : abiDecode [] [] true = .ok [] := by
      rw [abiDecode, hgcN]
      simp only [bind, Except.bind]
      rw [abiDecodeCoders, decodeCoder]
      rw [unpackList]
    have hit : evIndexedTypes [⟨true, t⟩] = [.bytesN 32] := by
      simp [evIndexedTypes, hdyn]
    have hnt : evNonIndexedTypes [⟨true, t⟩] = [] := by
      simp [evNonIndexedTypes]
    rw [decodeEventLog.eq_def]
    simp only [List.head?_cons, List.tail_cons, eq_self_iff_true, if_true]
    rw [hit, hnt]
    rw [show ([h] : List Bytes).flatten = h by simp]
    rw [habiB]
    dsimp only [Except.map]
    rw [habiN]
    dsimp only
    rw [evAssembleGo.eq_def]
    dsimp only
    rw [if_pos rfl, if_pos hdyn]
    rw [show resAccess [DVal.bytes h] 0 = some (.ok (.bytes h)) from rfl]
    rw [evAssembleGo.eq_def]

/-- **C9** (amended).  Parsing the malformed type string `uint256,` walks the
comma case with the root node current: the sibling is created with the
undefined parent and `node.parent.components.push(sibling)` throws a
`TypeError` (`nullParent`), not the positional
`unexpected character at position i` argument error; in particular no
truncated `ParamType` is ever returned. -/
theorem claim9_parse_comma :
    parseParamType false ("uint256,".toList) = .error .nullParent ∧
    (∀ i : Nat, parseParamType false ("uint256,".toList) ≠ .error (.unexpectedChar i)) ∧
    (∀ nd : PNode, parseParamType false ("uint256,".toList) ≠ .ok nd) := by
  have hmain : parseParamType false ("uint256,".toList) = .error .nullParent := by rfl
  refine ⟨hmain, ?_, ?_⟩
  · intro i hcontra
    rw [hmain] at hcontra
    simp at hcontra
  · intro nd hcontra
    rw [hmain] at hcontra
    simp at hcontra

/-- **C9**, counterexample to the claimed positional error: the stray
top-level comma of `uint256,` sits at position 7, yet the parse does not
fail with `unexpected character at position 7` (it dies with the
`TypeError` on the undefined parent). -/
theorem claim9_counterexample :
    parseParamType false ("uint256,".toList) ≠ .error (.unexpectedChar 7) := by
  intro hcontra
  rw [show parseParamType false ("uint256,".toList) = .error .nullParent from rfl] at hcontra
  simp at hcontra

/-- **C1**, counterexample to the unrestricted claim: the empty-type
`NullCoder` is a supported `ParamType` whose decoded `null` is dropped by
`unpack` (`pushValue`), so decode of encode returns `[]`, not the one-value
list. -/
theorem claim1_counterexample :
    abiEncode [PType.nullT] [Value.nullV] = .ok [] ∧
    abiDecode [PType.nullT] [] false = .ok [] ∧
    ([] : List DVal) ≠ [Value.nullV].map toD := by
  have hgc : getCoderList [PType.nullT] = .ok [Coder.nullC] := by
    rw [getCoderList, getCoder]
    rw [getCoderList]
    rfl
  refine ⟨?_, ?_, by simp⟩
  · rw [abiEncode, if_neg (by simp), hgc]
    simp only [bind, Except.bind]
    rw [encEq_tuple, if_neg (by simp)]
    rw [encPartsEq_cons, encEq_null]
    simp only [bind, Except.bind]
    rw [encPartsEq_nil]
    simp only [bind, Except.bind]
    rw [dynamic_null]
    rfl
  · have e0N := subReader_mid false
      ((List.nil_append ([] : Bytes)).symm)
      (rfl : (0 : Nat) = ([] : Bytes).length)
    have eNull : decodeCoder .nullC { data := ([] : Bytes), off := 0, allowLoose := false } =
        .ok .nullV { data := ([] : Bytes), off := 0, allowLoose := false } := by
      rw [decodeCoder]
      rfl
    have eFN : decodeField .nullC
        { data := ([] : Bytes), off := 0, allowLoose := false }
        { data := ([] : Bytes), off := 0, allowLoose := false } =
        .ok .nullV { data := ([] : Bytes), off := 0, allowLoose := false } := by
      rw [decodeField, if_neg (by simp)]
      simp only [eNull]
    rw [abiDecode, hgc]
    simp only [bind, Except.bind]
    rw [abiDecodeCoders, decodeCoder]
    simp only [e0N]
    rw [unpackList]
    simp only [eFN]
    rw [unpackList]
    rfl

/-- **C1**, witness: a `bool` round-trips through encode and decode. -/
theorem claim1_witness :
    getCoderList [PType.bool] = .ok [Coder.bool] ∧
    abiEncode [PType.bool] [Value.bool true] = .ok (word32 1) ∧
    abiDecode [PType.bool] (word32 1) false = .ok [DVal.bool true] := by
  have hcs : getCoderList [PType.bool] = .ok [Coder.bool] := by
    rw [getCoderList, getCoder]
    rw [getCoderList]
    rfl
  have henc : abiEncode [PType.bool] [Value.bool true] = .ok (word32 1) := by
    rw [abiEncode, if_neg (by simp), hcs]
    simp only [bind, Except.bind]
    rw [encEq_tuple, if_neg (by simp)]
    rw [encPartsEq_cons, encEq_bool, if_pos rfl, writeValue_ok 1 (by norm_num)]
    simp only [bind, Except.bind]
    rw [encPartsEq_nil]
    simp only [bind, Except.bind]
    rw [dynamic_bool, assemble]
    rw [assembleGo, if_neg (by simp), assembleGo]
    simp only [bind, Except.bind]
    simp
  refine ⟨hcs, henc, ?_⟩
  have hdec := claim1_roundtrip hcs (by simp)
    (by
      intro p hp
      have hp2 : p = (Coder.bool, Value.bool true) := by simpa using hp
      rw [hp2]
      exact Typed.bool)
    henc
    (by rw [word32_length]; norm_num)
  simpa using hdec

/-- **C5**, counterexample to "only buffer overruns abort": an offset word
of `2^53` goes through the `offset.toNumber()` that sits before the `try`,
so its numeric fault aborts the whole unpack instead of being captured in
the field. -/
theorem claim5_counterexample :
    abiDecodeCoders [.string] (word32 (2 ^ 53)) false =
      .error (.numericFault "toNumber" "overflow") := by
  have e0 := subReader_mid false
    ((List.nil_append (word32 (2 ^ 53))).symm)
    (rfl : (0 : Nat) = ([] : Bytes).length)
  have e1 := readValue_atEq false
    (show (word32 (2 ^ 53) : Bytes) = [] ++ (word32 (2 ^ 53) ++ []) by
      rw [List.nil_append, List.append_nil])
    (rfl : (0 : Nat) = ([] : Bytes).length)
    (word32_length _)
  have e2 := toNumber_overflow (2 ^ 53) (by omega)
  rw [abiDecodeCoders, decodeCoder]
  simp only [e0]
  rw [unpackList, decodeField, if_pos dynamic_string]
  simp only [e1, bytesToNat_word32 (2 ^ 53) (by norm_num), e2, Nat.zero_add]

/-- **C5**, witness at a concrete out-of-range address word and bool word. -/
theorem claim5_witness :
    ((2 : Nat) ^ 160 ≤ 2 ^ 160 ∧ (2 : Nat) ^ 160 < 2 ^ 256 ∧ (1 : Nat) < 2 ^ 256) ∧
    (abiDecodeCoders [.address, .bool] (word32 (2 ^ 160) ++ word32 1) false =
      .ok [.err (.invalidArgument "value out of range"), .bool ((1 : Nat) != 0)] ∧
    resAccess [.err (.invalidArgument "value out of range"), .bool ((1 : Nat) != 0)] 0 =
      some (.error (.invalidArgument "value out of range")) ∧
    resAccess [.err (.invalidArgument "value out of range"), .bool ((1 : Nat) != 0)] 1 =
      some (.ok (.bool ((1 : Nat) != 0))) ∧
    abiDecodeCoders [.string] (word32 64) false =
      .error (.bufferOverrun "data out-of-bounds")) :=
  ⟨⟨le_refl _, by norm_num, by norm_num⟩,
    claim5_deferred_capture (2 ^ 160) 1 (le_refl _) (by norm_num) (by norm_num) false⟩

/-- **C6**, counterexample to the unrestricted claim: a claimed count of
`2^53` also exceeds the available bytes, but the `count.toNumber()` numeric
fault fires before the sanity check, so the error is not the
`insufficient data length` buffer overrun. -/
theorem claim6_counterexample :
    decodeCoder (.array .bool none)
        { data := word32 (2 ^ 53), off := 0, allowLoose := false } =
      .err (.numericFault "toNumber" "overflow")
        { data := word32 (2 ^ 53), off := 32, allowLoose := false } ∧
    2 ^ 53 * 32 > (word32 (2 ^ 53) : Bytes).length := by
  constructor
  · have e1 := readValue_atEq false
      (show (word32 (2 ^ 53) : Bytes) = [] ++ (word32 (2 ^ 53) ++ []) by
        rw [List.nil_append, List.append_nil])
      (rfl : (0 : Nat) = ([] : Bytes).length)
      (word32_length _)
    have e2 := toNumber_overflow (2 ^ 53) (by omega)
    rw [decodeCoder]
    simp only [e1, bytesToNat_word32 (2 ^ 53) (by norm_num), e2, Nat.zero_add]
  · rw [word32_length]
    norm_num

/-- **C6**, witness: a claimed count of 2 over a 32-byte buffer trips the
sanity check. -/
theorem claim6_witness :
    ((2 : Nat) < 2 ^ 53 ∧ 2 * 32 > (([] : Bytes) ++ (word32 2 ++ [])).length) ∧
    decodeCoder (.array .bool none)
        { data := ([] : Bytes) ++ (word32 2 ++ []), off := ([] : Bytes).length,
          allowLoose := false } =
      .err (.bufferOverrun "insufficient data length")
        { data := ([] : Bytes) ++ (word32 2 ++ []), off := ([] : Bytes).length + 32,
          allowLoose := false } :=
  ⟨⟨by norm_num, by simp [word32_length]⟩,
    claim6_array_sanity .bool 2 [] [] false (by norm_num) (by simp [word32_length])⟩

/-- **C7**, counterexample to the claimed `div` fault: a negative divisor
returns the truncated quotient. -/
theorem claim7_counterexample : bnDiv 5 (-1) = .ok (-5) := by
  rw [bnDiv, if_neg (by norm_num)]
  rfl

/-- **C7**, witness at `x = 7`, `y = -3`. -/
theorem claim7_witness :
    ((-3 : Int) < 0) ∧
    (bnMod 7 (-3) = .error (.numericFault "mod" "cannot modulo negative values") ∧
     bnDiv 7 (-3) = .ok (Int.tdiv 7 (-3))) :=
  ⟨by norm_num, claim7_negative_divmod 7 (-3) (by norm_num)⟩

/-- **C2**, witness at `N = 8` (`size = 1`): `int8` rejects `128` and
round-trips `127`. -/
theorem claim2_witness :
    ((1 : Nat) ≤ 1 ∧ (1 : Nat) ≤ 32) ∧
    (encodeCoder (.num 1 true) (.int (2 ^ (1 * 8 - 1))) =
        .error (.invalidArgument "value out-of-bounds") ∧
      ∃ bs, encodeCoder (.num 1 true) (.int (2 ^ (1 * 8 - 1) - 1)) = .ok bs ∧
        ∀ rest al,
          decodeCoder (.num 1 true) { data := bs ++ rest, off := 0, allowLoose := al } =
            .ok (.int (2 ^ (1 * 8 - 1) - 1))
              { data := bs ++ rest, off := bs.length, allowLoose := al }) :=
  ⟨⟨le_refl 1, by norm_num⟩, claim2_intN_bounds 1 (le_refl 1) (by norm_num)⟩

/-- **C10**, witness on the word of 32 `7` bytes (a non-canonical nonzero
boolean encoding). -/
theorem claim10_witness :
    (List.replicate 32 7 : Bytes).length = 32 ∧
    decodeCoder .bool
        { data := ([] : Bytes) ++ (List.replicate 32 7 ++ []),
          off := ([] : Bytes).length, allowLoose := false } =
      .ok (.bool (bytesToNat (List.replicate 32 7) != 0))
        { data := ([] : Bytes) ++ (List.replicate 32 7 ++ []),
          off := ([] : Bytes).length + 32, allowLoose := false } :=
  ⟨by simp, claim10_bool_decode (show (List.replicate 32 7 : Bytes).length = 32 by simp)
    [] [] false⟩

end Pkcswap
